import Mathlib

/-!
# The symbol table of the armips assembler

A shallow embedding of `Core/SymbolTable.cpp`.

* A wide character (`wchar_t`) is its code unit value, a natural number, and a
  `std::wstring` is the list of its code units.  Character constants of the
  source are written as their values, with the character in a comment.
* `int` file and section tokens are integers; they are only assigned and
  compared, never computed with.
* `std::map<SymbolKey,SymbolInfo>` is a list of entries kept in the order of
  `operator<`; lookup uses the equivalence induced by `operator<`, as
  `std::map` does.
* `std::vector<Label*>` is the list of the labels pointed to; a `Label*` handed
  out by `getLabel` is identified with the index of its slot in that list.
* Every operation takes the table and returns its result together with the
  table it leaves behind.
* The field and the parameter `section` of the source are written `section_`,
  `section` being a keyword.
* The file `writeSymFile` writes is the sequence of the `writeLine` and `write`
  calls made on it; whether the file opens, and the value a label reports, are
  parameters of the operation.
-/

namespace Armips

/-! ## Wide strings -/

/-- A wide string: the list of the code unit values of its `wchar_t` characters
(the terminator is not stored). -/
abbrev wstring := List Nat

/-- The wide string literal with the characters of `s`. -/
def wstr (s : String) : wstring := s.toList.map Char.toNat

/-- Indexing `s[i]` of `std::wstring`: position `size()` holds the null
character. -/
def charAt (s : wstring) (i : Nat) : Nat := s.getD i 0

/-- The comparison `std::wstring::compare`: code units are compared one by
one, then the lengths.  The result is negative, zero or positive. -/
def wstringCompare : wstring → wstring → Int
  | [], [] => 0
  | [], _ :: _ => -1
  | _ :: _, [] => 1
  | a :: as, b :: bs =>
    if a < b then -1 else if b < a then 1 else wstringCompare as bs

/-- The C library function `wcschr(str, c)` on a null-terminated wide string
whose characters before the terminator are `str`: the suffix starting at the
first occurrence of `c`, or `none` for `NULL`.  The terminating null character
is part of the string (C11 7.29.4.5.1), so searching for the null
character finds the terminator. -/
def wcschr : wstring → Nat → Option wstring
  | [], c => if c = 0 then some [] else none
  | x :: xs, c => if x = c then some (x :: xs) else wcschr xs c

/-- The C library function `towlower` in the "C" locale, in which the
program runs: `A`..`Z` (65..90) go to `a`..`z`, every other character is
unchanged. -/
def towlower (c : Nat) : Nat :=
  if 65 ≤ c ∧ c ≤ 90 then c + 32 else c

/-- Source line 6. -/
def validSymbolCharacters : wstring :=
  wstr "ABCDEFGHIJKLMNOPQRSTUVWXYZabcdefghijklmnopqrstuvwxyz0123456789_."

/-! ## Data model -/

/-- Modelled from the spec: the struct `SymbolKey` of `Core/SymbolTable.h`, a file
that is not among the sources: a name, a file and a section, in the order of
the initialiser `{ symbol, file, section }` of the source. -/
structure SymbolKey where
  name : wstring
  file : Int
  section_ : Int
  deriving DecidableEq, Repr

/-- Source lines 8-15: `operator<` on `SymbolKey`. -/
def SymbolKey.lt (lhs rhs : SymbolKey) : Bool :=
  if lhs.file ≠ rhs.file then
    decide (lhs.file < rhs.file)
  else if lhs.section_ ≠ rhs.section_ then
    decide (lhs.section_ < rhs.section_)
  else
    decide (wstringCompare lhs.name rhs.name < 0)

/-- Modelled from the spec: the kinds `LabelSymbol` and `EquationSymbol` of a map
entry, an enumeration of `Core/SymbolTable.h`. -/
inductive SymbolType where
  | LabelSymbol
  | EquationSymbol
  deriving DecidableEq, Repr

/-- Modelled from the spec: the struct `SymbolInfo` of `Core/SymbolTable.h`: a
kind and the index of a slot, in the order of the initialiser
`{ LabelSymbol, labels.size() }` of the source. -/
structure SymbolInfo where
  type : SymbolType
  index : Nat
  deriving DecidableEq, Repr

/-- Modelled from the spec: the class `Label` of `Core/SymbolTable.h`: a name
and a value, unset until an external pass assigns it. -/
structure Label where
  name : wstring
  value : Option Int
  deriving DecidableEq, Repr

/-- Modelled from the spec: the constructor call `new Label(symbol)`, a label
with the name given and no value yet. -/
def Label.new (symbol : wstring) : Label := ⟨symbol, none⟩

/-- Modelled from the spec: the struct `Equation` of `Core/SymbolTable.h`: the
name `key`, the replacement text `value`, a file and a section, in the order of
the initialiser `{ name, replacement, file, section }` of the source. -/
structure Equation where
  key : wstring
  value : wstring
  file : Int
  section_ : Int
  deriving DecidableEq, Repr

/-- The entries of a `std::map<SymbolKey,SymbolInfo>`, in key order. -/
abbrev SymbolMap := List (SymbolKey × SymbolInfo)

/-- Key equivalence of `std::map`: neither key is less than the other. -/
def SymbolKey.equiv (a b : SymbolKey) : Bool :=
  !(SymbolKey.lt a b) && !(SymbolKey.lt b a)

/-- The lookup `symbols.find(key)`: the value of the entry whose key is equivalent
to `key`, or `none` for `symbols.end()`. -/
def mapFind : SymbolMap → SymbolKey → Option SymbolInfo
  | [], _ => none
  | (k, v) :: rest, key => if SymbolKey.equiv k key then some v else mapFind rest key

/-- The assignment `symbols[key] = value`: the value of an equivalent key is
replaced, otherwise a new entry is inserted at its place in the order. -/
def mapSet : SymbolMap → SymbolKey → SymbolInfo → SymbolMap
  | [], key, value => [(key, value)]
  | (k, v) :: rest, key, value =>
    if SymbolKey.lt key k then (key, value) :: (k, v) :: rest
    else if SymbolKey.lt k key then (k, v) :: mapSet rest key value
    else (k, value) :: rest

/-- The state of a `SymbolTable` object: the members `symbols`, `labels`,
`equations` and `uniqueCount` the source works on. -/
structure SymbolTable where
  symbols : SymbolMap
  labels : List Label
  equations : List Equation
  uniqueCount : Nat
  deriving DecidableEq, Repr

/-- Source lines 17-20: the freshly constructed table. -/
def SymbolTable.empty : SymbolTable := ⟨[], [], [], 0⟩

/-- Source lines 27-38: `clear`. -/
def SymbolTable.clear (_t : SymbolTable) : SymbolTable := ⟨[], [], [], 0⟩

/-! ## Names and scopes -/

/-- Source lines 40-53: `setFileSectionValues`, returning the new values of the
reference parameters `file` and `section`. -/
def setFileSectionValues (symbol : wstring) (file section_ : Int) : Int × Int :=
  if charAt symbol 0 = 64 /- '@' -/ then
    if charAt symbol 1 ≠ 64 /- '@' -/ then
      (file, -1)
    else
      (file, section_)
  else
    (-1, -1)

/-- Source lines 94-120: `isValidSymbolName`. -/
def isValidSymbolName (symbol : wstring) : Bool :=
  let size := symbol.length
  if size = 0 ∨ wstringCompare symbol (wstr "@") = 0 ∨ wstringCompare symbol (wstr "@@") = 0 then
    false
  else
    let start : Nat :=
      if charAt symbol 0 = 64 /- '@' -/ then
        if size > 1 ∧ charAt symbol 1 = 64 /- '@' -/ then 2 else 1
      else 0
    if charAt symbol start ≥ 48 /- '0' -/ ∧ charAt symbol start ≤ 57 /- '9' -/ then
      false
    else
      (symbol.drop start).all fun c => (wcschr validSymbolCharacters c).isSome

/-- Source lines 122-129: `isValidSymbolCharacter`. -/
def isValidSymbolCharacter (character : Nat) (first : Bool) : Bool :=
  let character := towlower character
  if character ≥ 97 /- 'a' -/ ∧ character ≤ 122 /- 'z' -/ then true
  else if first = false ∧ character ≥ 48 /- '0' -/ ∧ character ≤ 57 /- '9' -/ then true
  else if character = 95 /- '_' -/ ∨ character = 46 /- '.' -/ then true
  else false

/-- Modelled from the spec: the default value of the parameter `first` of
`isValidSymbolCharacter`, which is declared in `Core/SymbolTable.h`, a file
that is not among the sources.  The scanner of `insertEquations` calls the
predicate with one argument; a digit inside a word is identifier-legal
there, so the default is `false`. -/
def isValidSymbolCharacterDefaultFirst : Bool := false

/-! ## Operations of the table -/

/-- Source lines 55-80: `getLabel`.  The result is the slot index of the label
returned (`none` for `NULL`) and the table after the call. -/
def SymbolTable.getLabel (t : SymbolTable) (symbol : wstring) (file section_ : Int) :
    Option Nat × SymbolTable :=
  if isValidSymbolName symbol = false then
    (none, t)
  else
    let fs := setFileSectionValues symbol file section_
    let key : SymbolKey := ⟨symbol, fs.1, fs.2⟩
    match mapFind t.symbols key with
    | none =>
      let value : SymbolInfo := ⟨SymbolType.LabelSymbol, t.labels.length⟩
      (some t.labels.length,
        { t with symbols := mapSet t.symbols key value,
                 labels := t.labels ++ [Label.new symbol] })
    | some info =>
      if info.type ≠ SymbolType.LabelSymbol then
        (none, t)
      else
        (some info.index, t)

/-- Source lines 82-92: `symbolExists`. -/
def SymbolTable.symbolExists (t : SymbolTable) (symbol : wstring) (file section_ : Int) : Bool :=
  if isValidSymbolName symbol = false then
    false
  else
    let fs := setFileSectionValues symbol file section_
    let key : SymbolKey := ⟨symbol, fs.1, fs.2⟩
    (mapFind t.symbols key).isSome

/-- Source lines 131-148: `addEquation`.  The record appended is built after the
call of `setFileSectionValues`, from the values that call left in `file` and
`section`. -/
def SymbolTable.addEquation (t : SymbolTable) (name : wstring) (file section_ : Int)
    (replacement : wstring) : Bool × SymbolTable :=
  if isValidSymbolName name = false then
    (false, t)
  else if t.symbolExists name file section_ then
    (false, t)
  else
    let fs := setFileSectionValues name file section_
    let key : SymbolKey := ⟨name, fs.1, fs.2⟩
    let value : SymbolInfo := ⟨SymbolType.EquationSymbol, t.equations.length⟩
    let equation : Equation := ⟨name, replacement, fs.1, fs.2⟩
    (true,
      { t with symbols := mapSet t.symbols key value,
               equations := t.equations ++ [equation] })

/-- Source lines 169-185: the search of the equation list for `word`; the
replacement text of the first equation in scope whose key is `word`, or
`none` when `found` stays false. -/
def findEquation : List Equation → wstring → Int → Int → Option wstring
  | [], _, _, _ => none
  | eq :: rest, word, file, section_ =>
    if (eq.file = -1 ∨ eq.file = file) ∧ (eq.section_ = -1 ∨ eq.section_ = section_) then
      if eq.key.length ≠ word.length then
        findEquation rest word file section_
      else if eq.key ≠ word then
        findEquation rest word file section_
      else
        some eq.value
    else
      findEquation rest word file section_

/-- The call `isValidSymbolCharacter(line[pos])` of the scanner, with one
argument: the character is identifier-legal. -/
def identifierLegal (c : Nat) : Bool :=
  isValidSymbolCharacter c isValidSymbolCharacterDefaultFirst

/-- The call `line.substr(start, count)`. -/
def substr (line : wstring) (start count : Nat) : wstring := (line.drop start).take count

/-- Source lines 164-165: the inner loop
`while (isValidSymbolCharacter(line[pos]) && pos < line.size()) pos++;`,
giving the value of `pos` it ends with.  Every round moves `pos` on by one, so
`fuel` equal to the length of the line is enough. -/
def wordEnd (line : wstring) : Nat → Nat → Nat
  | 0, pos => pos
  | fuel + 1, pos =>
    if identifierLegal (charAt line pos) = true ∧ pos < line.length then
      wordEnd line fuel (pos + 1)
    else
      pos

/-- Source lines 155-189: the loop `while (pos < line.size())` of
`insertEquations`, from the state `pos`, `result` on, giving the final
`result`.  Every round moves `pos` on by at least one, so `fuel` equal to the
length of the line is enough. -/
def insertEquationsFrom (equations : List Equation) (line : wstring) (file section_ : Int) :
    Nat → Nat → wstring → wstring
  | 0, _, result => result
  | fuel + 1, pos, result =>
    if pos < line.length then
      if identifierLegal (charAt line pos) = false then
        insertEquationsFrom equations line file section_ fuel (pos + 1)
          (result ++ [charAt line pos])
      else
        let start := pos
        let pos := wordEnd line line.length (pos + 1)
        let word := substr line start (pos - start)
        match findEquation equations word file section_ with
        | some value =>
          insertEquationsFrom equations line file section_ fuel pos (result ++ value)
        | none =>
          insertEquationsFrom equations line file section_ fuel pos (result ++ word)
    else
      result

/-- Source lines 150-192: `insertEquations`. -/
def SymbolTable.insertEquations (t : SymbolTable) (line : wstring) (file section_ : Int) :
    wstring :=
  insertEquationsFrom t.equations line file section_ line.length 0 []

/-- The scan of `insertEquations` as a recursion on the rest of the line:
what the loop appends to `result` from a position on, given the characters
from that position to the end.  A character that is not identifier-legal is
copied; otherwise the word is that character and the identifier-legal
characters that follow it, and the word or its replacement is appended.  The
theorem `insertEquations_eq_loop` shows that this is what the loop of the
source computes. -/
def insertEquationsLoop (equations : List Equation) (file section_ : Int) :
    Nat → wstring → wstring
  | 0, _ => []
  | _ + 1, [] => []
  | fuel + 1, c :: rest =>
    if identifierLegal c = false then
      c :: insertEquationsLoop equations file section_ fuel rest
    else
      let word := c :: rest.takeWhile identifierLegal
      let after := rest.dropWhile identifierLegal
      (match findEquation equations word file section_ with
        | some value => value
        | none => word) ++ insertEquationsLoop equations file section_ fuel after

/-- One uppercase hexadecimal digit. -/
def hexDigit (d : Nat) : Nat :=
  if d < 10 then 48 /- '0' -/ + d else 65 /- 'A' -/ + (d - 10)

/-- Modelled from the spec: the helper `formatString` of `Util/Util.h`, a file
that is not among the sources, for the conversion `%08X` of its format: the
unsigned 32-bit value as 8 zero-padded uppercase hexadecimal digits. -/
def formatHex08 (v : Nat) : wstring :=
  (List.range 8).reverse.map fun i => hexDigit (v % 2 ^ 32 / 16 ^ i % 16)

/-- Source lines 212-215: `getUniqueLabelName`, with the table after the
increment of `uniqueCount`. -/
def SymbolTable.getUniqueLabelName (t : SymbolTable) : wstring × SymbolTable :=
  (wstr "__armips_label_" ++ formatHex08 t.uniqueCount ++ wstr "__",
    { t with uniqueCount := t.uniqueCount + 1 })

/-! ## Sequences of calls -/

/-- A call of one of the public operations of the table. -/
inductive Op where
  | getLabel (symbol : wstring) (file section_ : Int)
  | symbolExists (symbol : wstring) (file section_ : Int)
  | addEquation (name : wstring) (file section_ : Int) (replacement : wstring)
  | insertEquations (line : wstring) (file section_ : Int)
  | getUniqueLabelName
  | clear
  deriving DecidableEq, Repr

/-- The table after a call. -/
def Op.apply (t : SymbolTable) : Op → SymbolTable
  | Op.getLabel symbol file section_ => (t.getLabel symbol file section_).2
  | Op.symbolExists _ _ _ => t
  | Op.addEquation name file section_ replacement =>
    (t.addEquation name file section_ replacement).2
  | Op.insertEquations _ _ _ => t
  | Op.getUniqueLabelName => t.getUniqueLabelName.2
  | Op.clear => t.clear

/-- The table after a sequence of calls. -/
def run (t : SymbolTable) (ops : List Op) : SymbolTable := ops.foldl Op.apply t

/-- The tables an assembly run can see: those a sequence of calls produces
from the freshly constructed table. -/
def Reachable (t : SymbolTable) : Prop := ∃ ops : List Op, run SymbolTable.empty ops = t

/-! ## The wording of the specification, for comparison with the code -/

/-- The alphabet of valid names: `A`-`Z`, `a`-`z`, `0`-`9`, `_` and `.`. -/
abbrev InAlphabet (c : Nat) : Prop :=
  (65 ≤ c ∧ c ≤ 90) ∨ (97 ≤ c ∧ c ≤ 122) ∨ (48 ≤ c ∧ c ≤ 57) ∨ c = 95 ∨ c = 46

/-- A decimal digit, `0`-`9`. -/
abbrev IsDecimalDigit (c : Nat) : Prop := 48 ≤ c ∧ c ≤ 57

/-- The length of the leading `@` or `@@` of a name: 0, 1 or 2. -/
def scopePrefixLength : wstring → Nat
  | 64 :: 64 :: _ => 2
  | 64 :: _ => 1
  | _ => 0

/-- Validity of a name in the words of the specification: not empty, not
exactly `@` or `@@`, no decimal digit right after the leading `@` or `@@`, and
only characters of the alphabet from there to the end. -/
abbrev ValidNameSpec (s : wstring) : Prop :=
  s ≠ [] ∧ s ≠ wstr "@" ∧ s ≠ wstr "@@" ∧
  ¬ IsDecimalDigit (charAt s (scopePrefixLength s)) ∧
  ∀ c ∈ s.drop (scopePrefixLength s), InAlphabet c

/-- The equation is in scope for the current file and section: its file is -1
or the current file, and its section is -1 or the current section. -/
def Equation.inScope (e : Equation) (file section_ : Int) : Prop :=
  (e.file = -1 ∨ e.file = file) ∧ (e.section_ = -1 ∨ e.section_ = section_)

/-- The word `w` is a maximal run of identifier-legal characters of `line`:
it is not empty, all its characters are identifier-legal, it stands in the line
between `pre` and `post`, the character before it, if there is one, is not
identifier-legal, and neither is the character after it, if there is one. -/
def IsMaximalRun (line w : wstring) : Prop :=
  ∃ pre post : wstring, line = pre ++ w ++ post ∧ w ≠ [] ∧
    (∀ c ∈ w, identifierLegal c = true) ∧
    (∀ c ∈ pre.getLast?, identifierLegal c = false) ∧
    (∀ c ∈ post.head?, identifierLegal c = false)

/-- The key `{ symbol, file, section }` that `getLabel`, `symbolExists` and
`addEquation` build after their call of `setFileSectionValues`. -/
def resolvedKey (symbol : wstring) (file section_ : Int) : SymbolKey :=
  ⟨symbol, (setFileSectionValues symbol file section_).1,
    (setFileSectionValues symbol file section_).2⟩

/-- Every label entry of the map points to a slot of the label list, and the
label there carries the name of the key. -/
def LabelEntriesValid (t : SymbolTable) : Prop :=
  ∀ (k : SymbolKey) (i : Nat), mapFind t.symbols k = some ⟨SymbolType.LabelSymbol, i⟩ →
    ∃ l, t.labels[i]? = some l ∧ l.name = k.name

/-- Every equation entry of the map points to a slot of the equation list, and
the equation there carries the name, the file and the section of the key. -/
def EquationEntriesValid (t : SymbolTable) : Prop :=
  ∀ (k : SymbolKey) (i : Nat), mapFind t.symbols k = some ⟨SymbolType.EquationSymbol, i⟩ →
    ∃ e, t.equations[i]? = some e ∧ e.key = k.name ∧ e.file = k.file ∧
      e.section_ = k.section_

/-- Every equation of the list is registered in the map under its name, file
and section. -/
def EquationsRegistered (t : SymbolTable) : Prop :=
  ∀ e ∈ t.equations, (mapFind t.symbols ⟨e.key, e.file, e.section_⟩).isSome = true

/-- Every equation of the list holds a file and a section that
`setFileSectionValues` leaves as they are for its name. -/
def EquationsNormalised (t : SymbolTable) : Prop :=
  ∀ e ∈ t.equations, setFileSectionValues e.key e.file e.section_ = (e.file, e.section_)

/-- The consistency of the map with the two lists. -/
def Consistent (t : SymbolTable) : Prop :=
  LabelEntriesValid t ∧ EquationEntriesValid t ∧ EquationsRegistered t ∧
    EquationsNormalised t

/-- The equation `N` with the text `R` is the first match for the word `N` in
the equation list, for the current file and section: it is in scope and named
`N`, and no equation before it in the list is both in scope and named `N`. -/
def IsFirstMatch (equations : List Equation) (N R : wstring) (file section_ : Int) : Prop :=
  ∃ (before : List Equation) (e : Equation) (after : List Equation),
    equations = before ++ e :: after ∧ e.key = N ∧ e.value = R ∧ e.inScope file section_ ∧
    ∀ e2 ∈ before, e2.inScope file section_ → e2.key ≠ N

/-- The lexicographic order on `(file, section, name)` in the words of the
specification: the files decide, then the sections, then the names, which
are compared as lists of code units in the lexicographic order. -/
def SymbolKey.lexLt (a b : SymbolKey) : Prop :=
  a.file < b.file ∨ (a.file = b.file ∧
    (a.section_ < b.section_ ∨ (a.section_ = b.section_ ∧
      List.Lex (fun x y : Nat => x < y) a.name b.name)))

/-- The name `getUniqueLabelName` returns when the counter is `c`. -/
def uniqueLabelName (c : Nat) : wstring :=
  wstr "__armips_label_" ++ formatHex08 c ++ wstr "__"

/-- The value of an uppercase hexadecimal digit, `0`-`9` or `A`-`F`; `none` for
any other character. -/
def hexDigitValue (c : Nat) : Option Nat :=
  if 48 ≤ c ∧ c ≤ 57 then some (c - 48)
  else if 65 ≤ c ∧ c ≤ 70 then some (c - 55)
  else none

/-- The number a string of uppercase hexadecimal digits denotes, read from the
left; `none` when a character is not such a digit. -/
def hexValue (s : wstring) : Option Nat :=
  s.foldl (fun acc c =>
    match acc, hexDigitValue c with
    | some a, some d => some (16 * a + d)
    | _, _ => none) (some 0)

/-- The string `s` is the value `v` written as 8 zero-padded uppercase
hexadecimal digits. -/
def IsHex8 (s : wstring) (v : Nat) : Prop := s.length = 8 ∧ hexValue s = some v

/-- The counter embedded in a generated name: the value of the 8 characters
that follow the 15 characters of the prefix. -/
def embeddedCounter (name : wstring) : Option Nat := hexValue (substr name 15 8)

/-- The names returned by `n` successive calls of `getUniqueLabelName`, in the
order of the calls, and the table after them. -/
def uniqueLabelNames : Nat → SymbolTable → List wstring × SymbolTable
  | 0, t => ([], t)
  | n + 1, t =>
    ((t.getUniqueLabelName).1 :: (uniqueLabelNames n (t.getUniqueLabelName).2).1,
      (uniqueLabelNames n (t.getUniqueLabelName).2).2)

/-- The call declares no name of the generated form, unless the name is one
that `getUniqueLabelName` has returned since the counter was last reset, by the
constructor or by `clear`: the name of a counter below the current one. -/
def Op.keepsGeneratedNames (t : SymbolTable) : Op → Prop
  | Op.getLabel symbol _ _ =>
    ∀ c, symbol = uniqueLabelName c → ∃ k, k < t.uniqueCount ∧ symbol = uniqueLabelName k
  | Op.addEquation name _ _ _ =>
    ∀ c, name = uniqueLabelName c → ∃ k, k < t.uniqueCount ∧ name = uniqueLabelName k
  | _ => True

/-- Every call of the sequence, made on the table the calls before it have
left, declares no name of the generated form that was not returned since the
counter was last reset. -/
def runKeepsGeneratedNames : SymbolTable → List Op → Prop
  | _, [] => True
  | t, op :: rest => op.keepsGeneratedNames t ∧ runKeepsGeneratedNames (op.apply t) rest

/-- Every registered symbol whose name has the generated form bears a name
that `getUniqueLabelName` has returned for a counter below the current one. -/
def GeneratedNamesBelow (t : SymbolTable) : Prop :=
  ∀ key : SymbolKey, (mapFind t.symbols key).isSome = true →
    ∀ c, key.name = uniqueLabelName c → ∃ k, k < t.uniqueCount ∧ key.name = uniqueLabelName k

/-- Each key of the map has exactly one entry: no key occurs twice among the
entries. -/
def KeysUnique (t : SymbolTable) : Prop := (t.symbols.map Prod.fst).Nodup

/-- No two keys share the same kind and index. -/
def EntriesInjective (t : SymbolTable) : Prop :=
  ∀ (k1 k2 : SymbolKey) (v : SymbolInfo),
    mapFind t.symbols k1 = some v → mapFind t.symbols k2 = some v → k1 = k2

/-- Every slot of the label list is referenced by a key. -/
def LabelSlotsReferenced (t : SymbolTable) : Prop :=
  ∀ i : Nat, i < t.labels.length →
    ∃ k : SymbolKey, mapFind t.symbols k = some ⟨SymbolType.LabelSymbol, i⟩

/-- Every slot of the equation list is referenced by a key. -/
def EquationSlotsReferenced (t : SymbolTable) : Prop :=
  ∀ i : Nat, i < t.equations.length →
    ∃ k : SymbolKey, mapFind t.symbols k = some ⟨SymbolType.EquationSymbol, i⟩

/-- The index of the table is a one-to-one correspondence between the keys
and the slots of the two lists. -/
def IndexOneToOne (t : SymbolTable) : Prop :=
  KeysUnique t ∧ EntriesInjective t ∧ LabelSlotsReferenced t ∧ EquationSlotsReferenced t

/-- Modelled from the spec: the output methods of the class `TextFile` of
`Util/FileClasses.h`, a file that is not among the sources.  What a file holds
is the sequence of the calls made on it: `writeLine` writes its text as one
line, `write` writes its text as it is. -/
inductive TextFileWrite where
  | writeLine (text : wstring)
  | write (text : wstring)
  deriving DecidableEq, Repr

/-- The C string `s.c_str()` as the conversion `%s` reads it: the characters
of `s` before its first null character. -/
def cStr (s : wstring) : wstring := s.takeWhile fun c => decide (c ≠ 0)

/-- Modelled from the spec: the call `formatString(L"%08X %s", value, name)` of
the helper `formatString` of `Util/Util.h`, which is not among the sources: the
value as 8 zero-padded uppercase hexadecimal digits, a space, and the C string
`name`. -/
def formatSymLine (value : Nat) (name : wstring) : wstring :=
  formatHex08 value ++ [32 /- ' ' -/] ++ name

/-- Source lines 201-205: the loop `for (size_t i = 0; i < labels.size(); i++)`
of `writeSymFile`, from the index `i` on, giving the calls made on the file.
The getter `getValue` of the class `Label`, which is not among the sources, is
a parameter; the name goes to `formatString` as `getName().c_str()`.  Every
round moves `i` on by one, so `fuel` equal to the number of labels is
enough. -/
def writeSymFileLoop (getValue : Label → Nat) (labels : List Label) :
    Nat → Nat → List TextFileWrite → List TextFileWrite
  | 0, _, output => output
  | fuel + 1, i, output =>
    match labels[i]? with
    | some label =>
      writeSymFileLoop getValue labels fuel (i + 1)
        (output ++
          [TextFileWrite.writeLine (formatSymLine (getValue label) (cStr label.name))])
    | none => output

/-- Source lines 194-209: `writeSymFile`.  The parameter `opens` is the result
of `output.open`; the result is what the file holds after the call, `none`
when the file was not opened, and the table after the call. -/
def SymbolTable.writeSymFile (t : SymbolTable) (getValue : Label → Nat) (opens : Bool) :
    Option (List TextFileWrite) × SymbolTable :=
  if opens = false then
    (none, t)
  else
    (some (writeSymFileLoop getValue t.labels t.labels.length 0
        [TextFileWrite.writeLine (wstr "00000000 0")]
      ++ [TextFileWrite.write [26 /- 0x1A -/]]), t)

/-! # Theorems -/

/-! ## Wide string comparison and key equivalence -/

theorem wstringCompare_self (a : wstring) : wstringCompare a a = 0 := by
  induction a with
  | nil => rfl
  | cons x xs ih => simp [wstringCompare, ih]

theorem wstringCompare_eq_zero_iff (a b : wstring) : wstringCompare a b = 0 ↔ a = b := by
  induction a generalizing b with
  | nil => cases b <;> simp [wstringCompare]
  | cons x xs ih =>
    cases b with
    | nil => simp [wstringCompare]
    | cons y ys =>
      simp only [wstringCompare]
      split_ifs with h1 h2
      · simp; omega
      · simp; omega
      · have hxy : x = y := by omega
        simp [ih, hxy]

theorem wstringCompare_not_lt_both (a b : wstring) (h1 : ¬ wstringCompare a b < 0)
    (h2 : ¬ wstringCompare b a < 0) : a = b := by
  induction a generalizing b with
  | nil =>
    cases b with
    | nil => rfl
    | cons y ys => simp [wstringCompare] at h1
  | cons x xs ih =>
    cases b with
    | nil => simp [wstringCompare] at h2
    | cons y ys =>
      simp only [wstringCompare] at h1 h2
      by_cases hxy : x < y
      · simp [hxy] at h1
      · by_cases hyx : y < x
        · simp [hyx] at h2
        · have hEq : x = y := by omega
          subst hEq
          simp only [lt_self_iff_false, if_false] at h1 h2
          rw [ih ys h1 h2]

theorem SymbolKey.lt_irrefl (a : SymbolKey) : SymbolKey.lt a a = false := by
  simp [SymbolKey.lt, wstringCompare_self]

theorem SymbolKey.equiv_iff (a b : SymbolKey) : SymbolKey.equiv a b = true ↔ a = b := by
  constructor
  · intro h
    obtain ⟨an, af, as⟩ := a
    obtain ⟨bn, bf, bs⟩ := b
    simp only [SymbolKey.equiv, SymbolKey.lt, Bool.and_eq_true, Bool.not_eq_true'] at h
    obtain ⟨h1, h2⟩ := h
    by_cases hf : af = bf
    · subst hf
      by_cases hs : as = bs
      · subst hs
        simp only [ne_eq, not_true_eq_false, if_false, decide_eq_false_iff_not] at h1 h2
        rw [wstringCompare_not_lt_both an bn h1 h2]
      · have hs2 : ¬ bs = as := fun e => hs e.symm
        simp only [ne_eq, not_true_eq_false, if_false, hs, hs2, not_false_eq_true, if_true,
          decide_eq_false_iff_not] at h1 h2
        omega
    · have hf2 : ¬ bf = af := fun e => hf e.symm
      simp only [ne_eq, hf, hf2, not_false_eq_true, if_true, decide_eq_false_iff_not] at h1 h2
      omega
  · intro h
    subst h
    simp [SymbolKey.equiv, SymbolKey.lt_irrefl]

theorem SymbolKey.equiv_self (a : SymbolKey) : SymbolKey.equiv a a = true :=
  (SymbolKey.equiv_iff a a).2 rfl

theorem SymbolKey.equiv_eq_decide (a b : SymbolKey) : SymbolKey.equiv a b = decide (a = b) := by
  by_cases h : a = b
  · simp [h, SymbolKey.equiv_self]
  · have : ¬ SymbolKey.equiv a b = true := fun e => h ((SymbolKey.equiv_iff a b).1 e)
    simp [h, this]

/-! ## The map -/

theorem mapFind_mapSet (m : SymbolMap) (key q : SymbolKey) (value : SymbolInfo) :
    mapFind (mapSet m key value) q = if key = q then some value else mapFind m q := by
  induction m with
  | nil => simp [mapSet, mapFind, SymbolKey.equiv_eq_decide]
  | cons e rest ih =>
    obtain ⟨k, v⟩ := e
    simp only [mapSet]
    by_cases h1 : SymbolKey.lt key k = true
    · simp [h1, mapFind, SymbolKey.equiv_eq_decide]
    · by_cases h2 : SymbolKey.lt k key = true
      · simp only [h1, h2, if_true, if_false, mapFind, ih, SymbolKey.equiv_eq_decide,
          Bool.false_eq_true, decide_eq_true_eq]
        by_cases hkq : k = q
        · have hne : ¬ key = q := by
            intro e
            rw [e, ← hkq, SymbolKey.lt_irrefl] at h2
            exact Bool.false_ne_true h2
          simp [hkq, hne]
        · simp [hkq]
      · have hEq : k = key := by
          apply (SymbolKey.equiv_iff k key).1
          simp only [SymbolKey.equiv, Bool.and_eq_true, Bool.not_eq_true']
          exact ⟨by simpa using h2, by simpa using h1⟩
        subst hEq
        simp only [h1, if_false, mapFind, SymbolKey.equiv_eq_decide, Bool.false_eq_true,
          decide_eq_true_eq]
        by_cases hkq : k = q <;> simp [hkq]

theorem mapFind_mapSet_self (m : SymbolMap) (key : SymbolKey) (value : SymbolInfo) :
    mapFind (mapSet m key value) key = some value := by
  simp [mapFind_mapSet]

/-! ## Name validation -/

theorem wcschr_isSome_iff (str : wstring) (c : Nat) :
    (wcschr str c).isSome = true ↔ c ∈ str ∨ c = 0 := by
  induction str with
  | nil => simp [wcschr]
  | cons x xs ih =>
    simp only [wcschr]
    split_ifs with h
    · simp [h]
    · rw [ih, List.mem_cons]
      constructor
      · rintro (h1 | h1)
        · exact Or.inl (Or.inr h1)
        · exact Or.inr h1
      · rintro ((h1 | h1) | h1)
        · exact absurd h1.symm h
        · exact Or.inl h1
        · exact Or.inr h1

theorem validSymbolCharacters_bounded : ∀ c ∈ validSymbolCharacters, c < 123 := by
  decide

set_option maxRecDepth 100000 in
theorem mem_validSymbolCharacters_below :
    ∀ c < 123, (c ∈ validSymbolCharacters ↔ InAlphabet c) := by
  decide

theorem mem_validSymbolCharacters_iff (c : Nat) :
    c ∈ validSymbolCharacters ↔ InAlphabet c := by
  by_cases hc : c < 123
  · exact mem_validSymbolCharacters_below c hc
  · constructor
    · intro h
      exact absurd (validSymbolCharacters_bounded c h) hc
    · intro h
      rcases h with h | h | h | h | h <;> omega

theorem isValidSymbolName_start (symbol : wstring) :
    (if charAt symbol 0 = 64 then
        if symbol.length > 1 ∧ charAt symbol 1 = 64 then 2 else 1
      else 0) = scopePrefixLength symbol := by
  match symbol with
  | [] => simp [charAt, scopePrefixLength]
  | [x] =>
    by_cases hx : x = 64
    · subst hx; simp [charAt, scopePrefixLength]
    · simp [charAt, hx]
      unfold scopePrefixLength
      split <;> simp_all
  | x :: y :: rest =>
    by_cases hx : x = 64
    · subst hx
      by_cases hy : y = 64
      · subst hy; simp [charAt, scopePrefixLength]
      · simp [charAt, hy]
        unfold scopePrefixLength
        split <;> simp_all
    · simp [charAt, hx]
      unfold scopePrefixLength
      split <;> simp_all

/-- What `isValidSymbolName` computes: the conditions of the specification,
except that the null character passes the alphabet test as well. -/
theorem isValidSymbolName_iff (s : wstring) :
    isValidSymbolName s = true ↔
      s ≠ [] ∧ s ≠ wstr "@" ∧ s ≠ wstr "@@" ∧
      ¬ IsDecimalDigit (charAt s (scopePrefixLength s)) ∧
      ∀ c ∈ s.drop (scopePrefixLength s), InAlphabet c ∨ c = 0 := by
  unfold isValidSymbolName
  simp only [isValidSymbolName_start, wstringCompare_eq_zero_iff, List.length_eq_zero]
  by_cases h1 : s = []
  · simp [h1]
  by_cases h2 : s = wstr "@"
  · simp [h2]
  by_cases h3 : s = wstr "@@"
  · simp [h3]
  simp only [h1, h2, h3, or_self, if_false, ne_eq, not_false_eq_true, true_and, ge_iff_le]
  by_cases h4 : 48 ≤ charAt s (scopePrefixLength s) ∧ charAt s (scopePrefixLength s) ≤ 57
  · simp [h4]
  · simp only [h4, if_false, not_false_eq_true, true_and, List.all_eq_true,
      wcschr_isSome_iff, mem_validSymbolCharacters_iff]

/-- On names without a null character `isValidSymbolName` decides exactly the
validity of the specification. -/
theorem isValidSymbolName_iff_spec_of_no_null (s : wstring) (h0 : (0 : Nat) ∉ s) :
    isValidSymbolName s = true ↔ ValidNameSpec s := by
  rw [isValidSymbolName_iff]
  have key : (∀ c ∈ s.drop (scopePrefixLength s), InAlphabet c ∨ c = 0) ↔
      (∀ c ∈ s.drop (scopePrefixLength s), InAlphabet c) := by
    constructor
    · intro h c hc
      rcases h c hc with h' | h'
      · exact h'
      · exact absurd (h' ▸ List.mem_of_mem_drop hc) h0
    · intro h c hc
      exact Or.inl (h c hc)
  rw [key]

theorem scopePrefix_all_at (s : wstring) : ∀ c ∈ s.take (scopePrefixLength s), c = 64 := by
  unfold scopePrefixLength
  split <;> simp

/-- A name with a character that is neither `@`, null nor of the alphabet is
rejected, wherever the character stands. -/
theorem isValidSymbolName_rejects (s : wstring) (c : Nat) (h : c ∈ s) (h64 : c ≠ 64)
    (h0 : c ≠ 0) (hc : ¬ InAlphabet c) : isValidSymbolName s = false := by
  by_contra hv
  have hv2 : isValidSymbolName s = true := by simpa using hv
  rw [isValidSymbolName_iff] at hv2
  obtain ⟨_, _, _, _, hall⟩ := hv2
  rw [← List.take_append_drop (scopePrefixLength s) s, List.mem_append] at h
  rcases h with h | h
  · exact h64 (scopePrefix_all_at s c h)
  · rcases hall c h with h' | h'
    · exact hc h'
    · exact h0 h'

/-- The names the specification lists: `1abc`, the empty name, `@` and `@@`
are rejected, `abc_123.x` and `@label` are accepted. -/
theorem isValidSymbolName_examples :
    isValidSymbolName (wstr "1abc") = false ∧ isValidSymbolName (wstr "") = false ∧
      isValidSymbolName (wstr "@") = false ∧ isValidSymbolName (wstr "@@") = false ∧
      isValidSymbolName (wstr "abc_123.x") = true ∧
      isValidSymbolName (wstr "@label") = true := by
  decide

/-- A name that contains `-` (45) is rejected. -/
theorem isValidSymbolName_rejects_dash (s : wstring) (h : 45 ∈ s) :
    isValidSymbolName s = false :=
  isValidSymbolName_rejects s 45 h (by decide) (by decide) (by decide)

/-- C1: the name made of the letter `a` followed by the null character is not
valid in the words of the specification, since the null character is not in
the alphabet, but `isValidSymbolName` accepts it: `wcschr` finds the null
character at the terminator of `validSymbolCharacters`. -/
theorem isValidSymbolName_accepts_null :
    isValidSymbolName [97, 0] = true ∧ ¬ ValidNameSpec [97, 0] := by
  decide

/-! ## Lookup and creation of labels -/

theorem getLabel_of_invalid (t : SymbolTable) (N : wstring) (f s : Int)
    (h : isValidSymbolName N = false) : t.getLabel N f s = (none, t) := by
  simp [SymbolTable.getLabel, h]

theorem getLabel_of_absent (t : SymbolTable) (N : wstring) (f s : Int)
    (hv : isValidSymbolName N = true) (h : mapFind t.symbols (resolvedKey N f s) = none) :
    t.getLabel N f s =
      (some t.labels.length,
        { t with symbols := mapSet t.symbols (resolvedKey N f s)
                   ⟨SymbolType.LabelSymbol, t.labels.length⟩,
                 labels := t.labels ++ [Label.new N] }) := by
  unfold resolvedKey at h
  simp [SymbolTable.getLabel, hv, h, resolvedKey]

theorem getLabel_of_label (t : SymbolTable) (N : wstring) (f s : Int) (i : Nat)
    (hv : isValidSymbolName N = true)
    (h : mapFind t.symbols (resolvedKey N f s) = some ⟨SymbolType.LabelSymbol, i⟩) :
    t.getLabel N f s = (some i, t) := by
  unfold resolvedKey at h
  simp [SymbolTable.getLabel, hv, h]

theorem getLabel_of_equation (t : SymbolTable) (N : wstring) (f s : Int) (i : Nat)
    (hv : isValidSymbolName N = true)
    (h : mapFind t.symbols (resolvedKey N f s) = some ⟨SymbolType.EquationSymbol, i⟩) :
    t.getLabel N f s = (none, t) := by
  unfold resolvedKey at h
  simp [SymbolTable.getLabel, hv, h]

theorem symbolExists_of_valid (t : SymbolTable) (N : wstring) (f s : Int)
    (hv : isValidSymbolName N = true) :
    t.symbolExists N f s = (mapFind t.symbols (resolvedKey N f s)).isSome := by
  simp [SymbolTable.symbolExists, hv, resolvedKey]

/-- After `getLabel` has returned a label, the map holds a label entry with
the returned index at the resolved key, and the name was valid. -/
theorem getLabel_some_entry (t t1 : SymbolTable) (N : wstring) (f s : Int) (i : Nat)
    (h : t.getLabel N f s = (some i, t1)) :
    isValidSymbolName N = true ∧
      mapFind t1.symbols (resolvedKey N f s) = some ⟨SymbolType.LabelSymbol, i⟩ := by
  by_cases hv : isValidSymbolName N = true
  · refine ⟨hv, ?_⟩
    cases hfind : mapFind t.symbols (resolvedKey N f s) with
    | none =>
      rw [getLabel_of_absent t N f s hv hfind] at h
      simp only [Prod.mk.injEq, Option.some.injEq] at h
      obtain ⟨hi, ht⟩ := h
      subst ht
      subst hi
      simp [mapFind_mapSet]
    | some info =>
      obtain ⟨ty, idx⟩ := info
      cases ty with
      | LabelSymbol =>
        rw [getLabel_of_label t N f s idx hv hfind] at h
        simp only [Prod.mk.injEq, Option.some.injEq] at h
        obtain ⟨hi, ht⟩ := h
        subst ht
        subst hi
        exact hfind
      | EquationSymbol =>
        rw [getLabel_of_equation t N f s idx hv hfind] at h
        simp at h
  · have hv2 : isValidSymbolName N = false := by simpa using hv
    rw [getLabel_of_invalid t N f s hv2] at h
    simp at h

/-- A call of `getLabel` that resolves to the key of an earlier successful
call finds the label of that call and changes nothing. -/
theorem getLabel_again (t t1 : SymbolTable) (N : wstring) (f s f2 s2 : Int) (i : Nat)
    (hkey : resolvedKey N f2 s2 = resolvedKey N f s)
    (h : t.getLabel N f s = (some i, t1)) :
    t1.symbolExists N f2 s2 = true ∧ t1.getLabel N f2 s2 = (some i, t1) := by
  obtain ⟨hv, hentry⟩ := getLabel_some_entry t t1 N f s i h
  rw [← hkey] at hentry
  exact ⟨by rw [symbolExists_of_valid t1 N f2 s2 hv, hentry]; rfl,
    getLabel_of_label t1 N f2 s2 i hv hentry⟩

theorem charAt_one_of_valid_at (N : wstring) (hv : isValidSymbolName N = true)
    (h0 : charAt N 0 = 64) : 1 < N.length := by
  rw [isValidSymbolName_iff] at hv
  obtain ⟨h1, h2, _⟩ := hv
  match N, h1, h2, h0 with
  | [x], _, h2, h0 =>
    simp [charAt] at h0
    subst h0
    exact absurd (by decide) h2
  | x :: y :: rest, _, _, _ => simp

/-- C2: a valid name that begins with a single `@` is file-scoped.  On the
empty table `getLabel(N, f, s)` creates the label, and afterwards
`symbolExists(N, f2, s2)` is true exactly when `f2 = f`, whatever the two
sections are. -/
theorem symbolExists_file_scoped (N : wstring) (f s f2 s2 : Int)
    (hv : isValidSymbolName N = true) (h0 : charAt N 0 = 64) (h1 : charAt N 1 ≠ 64) :
    (SymbolTable.empty.getLabel N f s).1 = some 0 ∧
      ((SymbolTable.empty.getLabel N f s).2.symbolExists N f2 s2 = true ↔ f2 = f) := by
  have hk : ∀ a b : Int, resolvedKey N a b = ⟨N, a, -1⟩ := by
    intro a b
    simp [resolvedKey, setFileSectionValues, h0, h1]
  have hnone : mapFind SymbolTable.empty.symbols (resolvedKey N f s) = none := rfl
  rw [getLabel_of_absent SymbolTable.empty N f s hv hnone]
  refine ⟨rfl, ?_⟩
  rw [symbolExists_of_valid _ N f2 s2 hv]
  simp only [mapFind_mapSet, hk]
  constructor
  · intro h
    by_contra hne
    have : ¬ ((⟨N, f, -1⟩ : SymbolKey) = ⟨N, f2, -1⟩) := by
      intro e
      injection e with _ e2
      exact hne e2.symm
    simp [this, SymbolTable.empty, mapFind] at h
  · intro h
    subst h
    simp

/-- The file-scoped label `@foo` declared in file 1, section 2 exists for
file 1, section 9. -/
theorem symbolExists_file_scoped_witness :
    isValidSymbolName (wstr "@foo") = true ∧
      ((SymbolTable.empty.getLabel (wstr "@foo") 1 2).2.symbolExists (wstr "@foo") 1 9 = true
        ↔ (1 : Int) = 1) :=
  ⟨by decide,
    (symbolExists_file_scoped (wstr "@foo") 1 2 1 9 (by decide) (by decide) (by decide)).2⟩

/-- C3, counterexample: the valid name `@@foo` keeps the file and the section
it is declared with; after `getLabel` in file 1, section 2 has created the
label, `symbolExists` in file 3, section 4 reports false. -/
theorem local_label_not_global :
    isValidSymbolName (wstr "@@foo") = true ∧
      setFileSectionValues (wstr "@@foo") 1 2 = (1, 2) ∧
      (SymbolTable.empty.getLabel (wstr "@@foo") 1 2).1 = some 0 ∧
      (SymbolTable.empty.getLabel (wstr "@@foo") 1 2).2.symbolExists (wstr "@@foo") 3 4
        = false := by
  decide

/-- C3, amended: for a valid name that begins with `@@`, scope normalisation
leaves the file and the section as the caller gave them, so the symbol is local
to that file and section.  On every table, after `getLabel(N, f, s)` returns a
label, `symbolExists(N, f, s)` is true and `getLabel(N, f, s)` returns the
same label and changes nothing; on the empty table the new symbol exists for
`(f2, s2)` exactly when `f2 = f` and `s2 = s`. -/
theorem local_label_scope (N : wstring) (f s : Int)
    (hv : isValidSymbolName N = true) (h0 : charAt N 0 = 64) (h1 : charAt N 1 = 64) :
    setFileSectionValues N f s = (f, s) ∧
      (∀ (t t1 : SymbolTable) (i : Nat), t.getLabel N f s = (some i, t1) →
        t1.symbolExists N f s = true ∧ t1.getLabel N f s = (some i, t1)) ∧
      (∀ f2 s2 : Int,
        (SymbolTable.empty.getLabel N f s).2.symbolExists N f2 s2 = true ↔
          (f2 = f ∧ s2 = s)) := by
  have hk : ∀ a b : Int, setFileSectionValues N a b = (a, b) := by
    intro a b
    simp [setFileSectionValues, h0, h1]
  refine ⟨hk f s, ?_, ?_⟩
  · intro t t1 i h
    exact getLabel_again t t1 N f s f s i rfl h
  · intro f2 s2
    have hnone : mapFind SymbolTable.empty.symbols (resolvedKey N f s) = none := rfl
    rw [getLabel_of_absent SymbolTable.empty N f s hv hnone,
      symbolExists_of_valid _ N f2 s2 hv]
    simp only [mapFind_mapSet, resolvedKey, hk]
    constructor
    · intro h
      by_contra hne
      have : ¬ ((⟨N, f, s⟩ : SymbolKey) = ⟨N, f2, s2⟩) := by
        intro e
        injection e with _ e2 e3
        exact hne ⟨e2.symm, e3.symm⟩
      simp [this, SymbolTable.empty, mapFind] at h
    · rintro ⟨h2, h3⟩
      subst h2
      subst h3
      simp

/-- The local label `@@foo` of file 1, section 2, asked for from file 1,
section 9. -/
theorem local_label_scope_witness :
    isValidSymbolName (wstr "@@foo") = true ∧
      setFileSectionValues (wstr "@@foo") 1 2 = (1, 2) ∧
      ((SymbolTable.empty.getLabel (wstr "@@foo") 1 2).2.symbolExists (wstr "@@foo") 1 9 = true
        ↔ ((1 : Int) = 1 ∧ (9 : Int) = 2)) :=
  ⟨by decide,
    (local_label_scope (wstr "@@foo") 1 2 (by decide) (by decide) (by decide)).1,
    (local_label_scope (wstr "@@foo") 1 2 (by decide) (by decide) (by decide)).2.2 1 9⟩

/-- C4: for a valid name that does not begin with `@`, the file and the section
of the key are both forced to -1.  On every table, after `getLabel(N, f, s)`
returns a label, `symbolExists(N, f2, s2)` is true and `getLabel(N, f2, s2)`
returns the same label and leaves the table as it is, for all files and
sections. -/
theorem global_label_scope (N : wstring) (f s f2 s2 : Int) (t t1 : SymbolTable) (i : Nat)
    (h0 : charAt N 0 ≠ 64) (h : t.getLabel N f s = (some i, t1)) :
    isValidSymbolName N = true ∧
      setFileSectionValues N f s = (-1, -1) ∧
      resolvedKey N f s = ⟨N, -1, -1⟩ ∧
      t1.symbolExists N f2 s2 = true ∧
      t1.getLabel N f2 s2 = (some i, t1) := by
  have hk : ∀ a b : Int, setFileSectionValues N a b = (-1, -1) := by
    intro a b
    simp [setFileSectionValues, h0]
  have hkey : resolvedKey N f2 s2 = resolvedKey N f s := by
    simp [resolvedKey, hk]
  refine ⟨(getLabel_some_entry t t1 N f s i h).1, hk f s, by simp [resolvedKey, hk], ?_⟩
  exact getLabel_again t t1 N f s f2 s2 i hkey h

/-- The global label `foo`, declared in file 1, section 2 and found again from
file 3, section 4. -/
theorem global_label_scope_witness :
    (SymbolTable.empty.getLabel (wstr "foo") 1 2).2.symbolExists (wstr "foo") 3 4 = true ∧
      (SymbolTable.empty.getLabel (wstr "foo") 1 2).2.getLabel (wstr "foo") 3 4
        = (some 0, (SymbolTable.empty.getLabel (wstr "foo") 1 2).2) :=
  (global_label_scope (wstr "foo") 1 2 3 4 SymbolTable.empty
    (SymbolTable.empty.getLabel (wstr "foo") 1 2).2 0 (by decide) (by decide)).2.2.2

/-! ## Declaration of equations -/

theorem addEquation_of_invalid (t : SymbolTable) (N r : wstring) (f s : Int)
    (h : isValidSymbolName N = false) : t.addEquation N f s r = (false, t) := by
  simp [SymbolTable.addEquation, h]

theorem addEquation_of_present (t : SymbolTable) (N r : wstring) (f s : Int)
    (h : (mapFind t.symbols (resolvedKey N f s)).isSome = true) :
    t.addEquation N f s r = (false, t) := by
  by_cases hv : isValidSymbolName N = true
  · have hex : t.symbolExists N f s = true := by
      rw [symbolExists_of_valid t N f s hv]; exact h
    simp [SymbolTable.addEquation, hv, hex]
  · have hv2 : isValidSymbolName N = false := by simpa using hv
    exact addEquation_of_invalid t N r f s hv2

theorem addEquation_of_absent (t : SymbolTable) (N r : wstring) (f s : Int)
    (hv : isValidSymbolName N = true) (h : mapFind t.symbols (resolvedKey N f s) = none) :
    t.addEquation N f s r =
      (true,
        { t with symbols := mapSet t.symbols (resolvedKey N f s)
                   ⟨SymbolType.EquationSymbol, t.equations.length⟩,
                 equations := t.equations ++
                   [⟨N, r, (resolvedKey N f s).file, (resolvedKey N f s).section_⟩] }) := by
  have hex : t.symbolExists N f s = false := by
    rw [symbolExists_of_valid t N f s hv, h]; rfl
  simp [SymbolTable.addEquation, hv, hex, resolvedKey]

/-- A successful `addEquation` found a valid name and a free key. -/
theorem addEquation_true (t t1 : SymbolTable) (N r : wstring) (f s : Int)
    (h : t.addEquation N f s r = (true, t1)) :
    isValidSymbolName N = true ∧ mapFind t.symbols (resolvedKey N f s) = none := by
  by_cases hv : isValidSymbolName N = true
  · refine ⟨hv, ?_⟩
    cases hfind : mapFind t.symbols (resolvedKey N f s) with
    | none => rfl
    | some info =>
      rw [addEquation_of_present t N r f s (by rw [hfind]; rfl)] at h
      simp at h
  · have hv2 : isValidSymbolName N = false := by simpa using hv
    rw [addEquation_of_invalid t N r f s hv2] at h
    simp at h

/-! ## Calls keep the table consistent -/

theorem setFileSectionValues_idem (N : wstring) (f s : Int) :
    setFileSectionValues N (setFileSectionValues N f s).1 (setFileSectionValues N f s).2 =
      setFileSectionValues N f s := by
  unfold setFileSectionValues
  split_ifs <;> rfl

theorem consistent_empty : Consistent SymbolTable.empty := by
  refine ⟨?_, ?_, ?_, ?_⟩
  · intro k i h
    simp [SymbolTable.empty, mapFind] at h
  · intro k i h
    simp [SymbolTable.empty, mapFind] at h
  · intro e he
    simp [SymbolTable.empty] at he
  · intro e he
    simp [SymbolTable.empty] at he

theorem getElem?_append_of_some {α : Type} (l : List α) (x a : α) (i : Nat)
    (h : l[i]? = some a) : (l ++ [x])[i]? = some a := by
  have hlt : i < l.length := by
    by_contra hge
    rw [List.getElem?_eq_none (by omega)] at h
    simp at h
  rw [List.getElem?_append_left hlt]
  exact h

theorem consistent_getLabel (t : SymbolTable) (N : wstring) (f s : Int)
    (hc : Consistent t) : Consistent (t.getLabel N f s).2 := by
  by_cases hv : isValidSymbolName N = true
  · cases hfind : mapFind t.symbols (resolvedKey N f s) with
    | none =>
      rw [getLabel_of_absent t N f s hv hfind]
      obtain ⟨hl, he, hr, hn⟩ := hc
      refine ⟨?_, ?_, ?_, hn⟩
      · intro k i h
        simp only [mapFind_mapSet] at h
        by_cases hk : resolvedKey N f s = k
        · simp only [hk, if_true, Option.some.injEq, SymbolInfo.mk.injEq, true_and] at h
          subst h
          refine ⟨Label.new N, by simp, ?_⟩
          rw [← hk]
          rfl
        · simp only [hk, if_false] at h
          obtain ⟨l, h1, h2⟩ := hl k i h
          exact ⟨l, getElem?_append_of_some _ _ _ _ h1, h2⟩
      · intro k i h
        simp only [mapFind_mapSet] at h
        by_cases hk : resolvedKey N f s = k
        · simp [hk] at h
        · simp only [hk, if_false] at h
          exact he k i h
      · intro e hmem
        have h1 := hr e hmem
        simp only [mapFind_mapSet]
        split_ifs
        · rfl
        · exact h1
    | some info =>
      obtain ⟨ty, idx⟩ := info
      cases ty with
      | LabelSymbol => rw [getLabel_of_label t N f s idx hv hfind]; exact hc
      | EquationSymbol => rw [getLabel_of_equation t N f s idx hv hfind]; exact hc
  · have hv2 : isValidSymbolName N = false := by simpa using hv
    rw [getLabel_of_invalid t N f s hv2]
    exact hc

theorem consistent_addEquation (t : SymbolTable) (N r : wstring) (f s : Int)
    (hc : Consistent t) : Consistent (t.addEquation N f s r).2 := by
  by_cases hv : isValidSymbolName N = true
  · cases hfind : mapFind t.symbols (resolvedKey N f s) with
    | none =>
      rw [addEquation_of_absent t N r f s hv hfind]
      obtain ⟨hl, he, hr, hn⟩ := hc
      refine ⟨?_, ?_, ?_, ?_⟩
      · intro k i h
        simp only [mapFind_mapSet] at h
        by_cases hk : resolvedKey N f s = k
        · simp [hk] at h
        · simp only [hk, if_false] at h
          exact hl k i h
      · intro k i h
        simp only [mapFind_mapSet] at h
        by_cases hk : resolvedKey N f s = k
        · simp only [hk, if_true, Option.some.injEq, SymbolInfo.mk.injEq, true_and] at h
          subst h
          refine ⟨⟨N, r, (resolvedKey N f s).file, (resolvedKey N f s).section_⟩,
            by simp, ?_⟩
          rw [← hk]
          exact ⟨rfl, rfl, rfl⟩
        · simp only [hk, if_false] at h
          obtain ⟨e, h1, h2⟩ := he k i h
          exact ⟨e, getElem?_append_of_some _ _ _ _ h1, h2⟩
      · intro e hmem
        simp only [List.mem_append, List.mem_singleton] at hmem
        simp only [mapFind_mapSet]
        rcases hmem with hmem | hmem
        · have h1 := hr e hmem
          split_ifs
          · rfl
          · exact h1
        · subst hmem
          simp [resolvedKey]
      · intro e hmem
        simp only [List.mem_append, List.mem_singleton] at hmem
        rcases hmem with hmem | hmem
        · exact hn e hmem
        · subst hmem
          exact setFileSectionValues_idem N f s
    | some info =>
      rw [addEquation_of_present t N r f s (by rw [hfind]; rfl)]
      exact hc
  · have hv2 : isValidSymbolName N = false := by simpa using hv
    rw [addEquation_of_invalid t N r f s hv2]
    exact hc

theorem consistent_apply (t : SymbolTable) (op : Op) (hc : Consistent t) :
    Consistent (op.apply t) := by
  cases op with
  | getLabel N f s => exact consistent_getLabel t N f s hc
  | symbolExists N f s => exact hc
  | addEquation N f s r => exact consistent_addEquation t N r f s hc
  | insertEquations l f s => exact hc
  | getUniqueLabelName => exact hc
  | clear => exact consistent_empty

theorem consistent_run (ops : List Op) (t : SymbolTable) (hc : Consistent t) :
    Consistent (run t ops) := by
  induction ops generalizing t with
  | nil => exact hc
  | cons op rest ih => exact ih (op.apply t) (consistent_apply t op hc)

theorem consistent_of_reachable (t : SymbolTable) (h : Reachable t) : Consistent t := by
  obtain ⟨ops, rfl⟩ := h
  exact consistent_run ops SymbolTable.empty consistent_empty

theorem reachable_empty : Reachable SymbolTable.empty := ⟨[], rfl⟩

theorem reachable_apply (t : SymbolTable) (op : Op) (h : Reachable t) :
    Reachable (op.apply t) := by
  obtain ⟨ops, rfl⟩ := h
  exact ⟨ops ++ [op], by simp [run, List.foldl_append]⟩

/-! ## Entries and slots are kept by later calls -/

/-- A call other than `clear` keeps every entry of the map, every label slot and
every equation slot. -/
theorem apply_keeps (t : SymbolTable) (op : Op) (hop : op ≠ Op.clear) :
    (∀ k v, mapFind t.symbols k = some v → mapFind (op.apply t).symbols k = some v) ∧
      (∀ (i : Nat) (l : Label), t.labels[i]? = some l → (op.apply t).labels[i]? = some l) ∧
      (∀ (i : Nat) (e : Equation), t.equations[i]? = some e →
        (op.apply t).equations[i]? = some e) := by
  cases op with
  | getLabel N f s =>
    by_cases hv : isValidSymbolName N = true
    · cases hfind : mapFind t.symbols (resolvedKey N f s) with
      | none =>
        simp only [Op.apply, getLabel_of_absent t N f s hv hfind]
        refine ⟨?_, ?_, fun i e h => h⟩
        · intro k v h
          rw [mapFind_mapSet]
          have hk : ¬ resolvedKey N f s = k := by
            intro e
            rw [e, h] at hfind
            simp at hfind
          simp [hk, h]
        · intro i l h
          exact getElem?_append_of_some _ _ _ _ h
      | some info =>
        obtain ⟨ty, idx⟩ := info
        cases ty with
        | LabelSymbol =>
          simp only [Op.apply, getLabel_of_label t N f s idx hv hfind]
          exact ⟨fun k v h => h, fun i l h => h, fun i e h => h⟩
        | EquationSymbol =>
          simp only [Op.apply, getLabel_of_equation t N f s idx hv hfind]
          exact ⟨fun k v h => h, fun i l h => h, fun i e h => h⟩
    · have hv2 : isValidSymbolName N = false := by simpa using hv
      simp only [Op.apply, getLabel_of_invalid t N f s hv2]
      exact ⟨fun k v h => h, fun i l h => h, fun i e h => h⟩
  | symbolExists N f s => exact ⟨fun k v h => h, fun i l h => h, fun i e h => h⟩
  | addEquation N f s r =>
    by_cases hv : isValidSymbolName N = true
    · cases hfind : mapFind t.symbols (resolvedKey N f s) with
      | none =>
        simp only [Op.apply, addEquation_of_absent t N r f s hv hfind]
        refine ⟨?_, fun i l h => h, ?_⟩
        · intro k v h
          rw [mapFind_mapSet]
          have hk : ¬ resolvedKey N f s = k := by
            intro e
            rw [e, h] at hfind
            simp at hfind
          simp [hk, h]
        · intro i e h
          exact getElem?_append_of_some _ _ _ _ h
      | some info =>
        simp only [Op.apply, addEquation_of_present t N r f s (by rw [hfind]; rfl)]
        exact ⟨fun k v h => h, fun i l h => h, fun i e h => h⟩
    · have hv2 : isValidSymbolName N = false := by simpa using hv
      simp only [Op.apply, addEquation_of_invalid t N r f s hv2]
      exact ⟨fun k v h => h, fun i l h => h, fun i e h => h⟩
  | insertEquations l f s => exact ⟨fun k v h => h, fun i l h => h, fun i e h => h⟩
  | getUniqueLabelName => exact ⟨fun k v h => h, fun i l h => h, fun i e h => h⟩
  | clear => exact absurd rfl hop

theorem run_keeps (ops : List Op) (t : SymbolTable) (hops : Op.clear ∉ ops) :
    (∀ k v, mapFind t.symbols k = some v → mapFind (run t ops).symbols k = some v) ∧
      (∀ (i : Nat) (l : Label), t.labels[i]? = some l → (run t ops).labels[i]? = some l) ∧
      (∀ (i : Nat) (e : Equation), t.equations[i]? = some e →
        (run t ops).equations[i]? = some e) := by
  induction ops generalizing t with
  | nil => exact ⟨fun k v h => h, fun i l h => h, fun i e h => h⟩
  | cons op rest ih =>
    have hop : op ≠ Op.clear := by
      intro e
      exact hops (by simp [e])
    have hrest : Op.clear ∉ rest := by
      intro e
      exact hops (by simp [e])
    obtain ⟨a1, a2, a3⟩ := apply_keeps t op hop
    obtain ⟨b1, b2, b3⟩ := ih (op.apply t) hrest
    exact ⟨fun k v h => b1 k v (a1 k v h), fun i l h => b2 i l (a2 i l h),
      fun i e h => b3 i e (a3 i e h)⟩

/-! ## The claims on labels and equations -/

/-- C5: `getLabel` is get-or-create and idempotent.  On a reachable table, when
`getLabel(N, f, s)` returns a label, the label is a slot of the label list
that carries the name `N`, the same call made again returns the same slot and
leaves the table exactly as the first call left it, and the first call has
appended at most one label and touched neither the equations nor the
counter. -/
theorem getLabel_idempotent (t t1 : SymbolTable) (N : wstring) (f s : Int) (i : Nat)
    (hr : Reachable t) (h : t.getLabel N f s = (some i, t1)) :
    t1.getLabel N f s = (some i, t1) ∧
      (∃ l, t1.labels[i]? = some l ∧ l.name = N) ∧
      (t1.labels = t.labels ∨ t1.labels = t.labels ++ [Label.new N]) ∧
      t1.equations = t.equations ∧ t1.uniqueCount = t.uniqueCount := by
  have hc1 : Consistent t1 := by
    have := consistent_getLabel t N f s (consistent_of_reachable t hr)
    rw [h] at this
    exact this
  obtain ⟨hv, hentry⟩ := getLabel_some_entry t t1 N f s i h
  refine ⟨(getLabel_again t t1 N f s f s i rfl h).2, hc1.1 _ i hentry, ?_⟩
  cases hfind : mapFind t.symbols (resolvedKey N f s) with
  | none =>
    rw [getLabel_of_absent t N f s hv hfind] at h
    simp only [Prod.mk.injEq] at h
    obtain ⟨_, ht⟩ := h
    subst ht
    exact ⟨Or.inr rfl, rfl, rfl⟩
  | some info =>
    obtain ⟨ty, idx⟩ := info
    cases ty with
    | LabelSymbol =>
      rw [getLabel_of_label t N f s idx hv hfind] at h
      simp only [Prod.mk.injEq] at h
      obtain ⟨_, ht⟩ := h
      subst ht
      exact ⟨Or.inl rfl, rfl, rfl⟩
    | EquationSymbol =>
      rw [getLabel_of_equation t N f s idx hv hfind] at h
      simp at h

/-- The file-scoped label `@loop` asked for twice on the empty table. -/
theorem getLabel_idempotent_witness :
    (SymbolTable.empty.getLabel (wstr "@loop") 1 2).2.getLabel (wstr "@loop") 1 2
      = (some 0, (SymbolTable.empty.getLabel (wstr "@loop") 1 2).2) :=
  (getLabel_idempotent SymbolTable.empty (SymbolTable.empty.getLabel (wstr "@loop") 1 2).2
    (wstr "@loop") 1 2 0 reachable_empty (by decide)).1

/-- C6: the kind of a key is fixed at its first declaration.  When
`addEquation(N, f, s, r)` has returned true, then after any further calls that
do not clear the table, a `getLabel(N, f2, s2)` that resolves to the same key
returns no label and leaves the table unchanged; the key is still bound to the
equation, which is still stored in its slot. -/
theorem equation_key_stays_equation (t t1 : SymbolTable) (N r : wstring) (f s f2 s2 : Int)
    (ops : List Op) (hadd : t.addEquation N f s r = (true, t1)) (hops : Op.clear ∉ ops)
    (hkey : resolvedKey N f2 s2 = resolvedKey N f s) :
    (run t1 ops).getLabel N f2 s2 = (none, run t1 ops) ∧
      mapFind (run t1 ops).symbols (resolvedKey N f s)
        = some ⟨SymbolType.EquationSymbol, t.equations.length⟩ ∧
      (run t1 ops).equations[t.equations.length]?
        = some ⟨N, r, (resolvedKey N f s).file, (resolvedKey N f s).section_⟩ := by
  obtain ⟨hv, hfind⟩ := addEquation_true t t1 N r f s hadd
  rw [addEquation_of_absent t N r f s hv hfind] at hadd
  simp only [Prod.mk.injEq, true_and] at hadd
  obtain ⟨k1, _, k3⟩ := run_keeps ops t1 hops
  subst hadd
  have hentry := k1 (resolvedKey N f s) ⟨SymbolType.EquationSymbol, t.equations.length⟩
    (mapFind_mapSet_self _ _ _)
  refine ⟨?_, hentry, ?_⟩
  · apply getLabel_of_equation _ N f2 s2 t.equations.length hv
    rw [hkey]
    exact hentry
  · apply k3
    simp

/-- The equation `SIZE` is declared, a label is created, and `SIZE` is then
asked for as a label from another file and section. -/
theorem equation_key_stays_equation_witness :
    (run (SymbolTable.empty.addEquation (wstr "SIZE") 1 2 (wstr "16")).2
        [Op.getLabel (wstr "start") 1 2]).getLabel (wstr "SIZE") 3 4
      = (none, run (SymbolTable.empty.addEquation (wstr "SIZE") 1 2 (wstr "16")).2
        [Op.getLabel (wstr "start") 1 2]) :=
  (equation_key_stays_equation SymbolTable.empty
    (SymbolTable.empty.addEquation (wstr "SIZE") 1 2 (wstr "16")).2 (wstr "SIZE") (wstr "16")
    1 2 3 4 [Op.getLabel (wstr "start") 1 2] (by decide) (by decide) (by decide)).1

/-- C7: an invalid name is rejected without side effects.  `getLabel` returns no
label, `symbolExists` returns false and `addEquation` returns false, and the
table after each call is the table before it. -/
theorem invalid_name_rejected (t : SymbolTable) (N r : wstring) (f s : Int)
    (h : isValidSymbolName N = false) :
    t.getLabel N f s = (none, t) ∧ t.symbolExists N f s = false ∧
      t.addEquation N f s r = (false, t) :=
  ⟨getLabel_of_invalid t N f s h, by simp [SymbolTable.symbolExists, h],
    addEquation_of_invalid t N r f s h⟩

/-- The name `1abc` is invalid. -/
theorem invalid_name_rejected_witness :
    isValidSymbolName (wstr "1abc") = false ∧
      SymbolTable.empty.getLabel (wstr "1abc") 1 2 = (none, SymbolTable.empty) ∧
      SymbolTable.empty.symbolExists (wstr "1abc") 1 2 = false ∧
      SymbolTable.empty.addEquation (wstr "1abc") 1 2 (wstr "16") = (false, SymbolTable.empty) :=
  ⟨by decide, invalid_name_rejected SymbolTable.empty (wstr "1abc") (wstr "16") 1 2 (by decide)⟩

theorem resolvedKey_global (N : wstring) (f s : Int) (h0 : charAt N 0 ≠ 64) :
    resolvedKey N f s = ⟨N, -1, -1⟩ := by
  simp [resolvedKey, setFileSectionValues, h0]

/-- On a consistent table with no symbol at the global key of `N`, no equation
is named `N`. -/
theorem no_equation_named (t : SymbolTable) (N : wstring) (hc : Consistent t)
    (h0 : charAt N 0 ≠ 64) (hfind : mapFind t.symbols ⟨N, -1, -1⟩ = none) :
    ∀ e ∈ t.equations, e.key ≠ N := by
  intro e he hkey
  obtain ⟨_, _, hreg, hnorm⟩ := hc
  have h1 := hnorm e he
  have h2 := hreg e he
  rw [hkey] at h1 h2
  simp only [setFileSectionValues, h0, if_false, Prod.mk.injEq] at h1
  rw [← h1.1, ← h1.2, hfind] at h2
  simp at h2

/-- C8: an equation is declared once per resolved key.  On a reachable table,
when a symbol of either kind is registered at the key that `(N, f, s)`
resolves to, `addEquation(N, f, s, r)` returns false and leaves the table
unchanged.  In particular, for a name without `@` such as `X`, after a
successful `addEquation(N, f, s, r1)` a second `addEquation(N, f, s, r2)`
returns false, and the equation list holds exactly one equation named `N`, with
the text `r1`. -/
theorem addEquation_once (t : SymbolTable) (hr : Reachable t) :
    (∀ (N r : wstring) (f s : Int),
        (mapFind t.symbols (resolvedKey N f s)).isSome = true →
        t.addEquation N f s r = (false, t)) ∧
      (∀ (N r1 r2 : wstring) (f s : Int) (t1 : SymbolTable), charAt N 0 ≠ 64 →
        t.addEquation N f s r1 = (true, t1) →
        t1.addEquation N f s r2 = (false, t1) ∧
          t1.equations.filter (fun e => decide (e.key = N)) = [⟨N, r1, -1, -1⟩]) := by
  refine ⟨fun N r f s h => addEquation_of_present t N r f s h, ?_⟩
  intro N r1 r2 f s t1 h0 hadd
  obtain ⟨hv, hfind⟩ := addEquation_true t t1 N r1 f s hadd
  rw [addEquation_of_absent t N r1 f s hv hfind] at hadd
  simp only [Prod.mk.injEq, true_and] at hadd
  subst hadd
  refine ⟨addEquation_of_present _ N r2 f s (by simp [mapFind_mapSet]), ?_⟩
  have hk := resolvedKey_global N f s h0
  rw [hk] at hfind
  have hnone := no_equation_named t N (consistent_of_reachable t hr) h0 hfind
  have hfilter : t.equations.filter (fun e => decide (e.key = N)) = [] := by
    rw [List.filter_eq_nil_iff]
    intro e he
    simpa using hnone e he
  simp [List.filter_append, hfilter, hk]

/-- The equation `X` declared twice on the empty table. -/
theorem addEquation_once_witness :
    (SymbolTable.empty.addEquation (wstr "X") 1 2 (wstr "1")).2.addEquation (wstr "X") 1 2
        (wstr "2")
      = (false, (SymbolTable.empty.addEquation (wstr "X") 1 2 (wstr "1")).2) ∧
    (SymbolTable.empty.addEquation (wstr "X") 1 2 (wstr "1")).2.equations.filter
        (fun e => decide (e.key = wstr "X"))
      = [⟨wstr "X", wstr "1", -1, -1⟩] :=
  (addEquation_once SymbolTable.empty reachable_empty).2 (wstr "X") (wstr "1") (wstr "2") 1 2
    (SymbolTable.empty.addEquation (wstr "X") 1 2 (wstr "1")).2 (by decide) (by decide)

/-! ## The substitution scanner -/

theorem insertEquationsLoop_fuel (eqs : List Equation) (f s : Int) (n m : Nat) (line : wstring)
    (hn : line.length ≤ n) (hm : line.length ≤ m) :
    insertEquationsLoop eqs f s n line = insertEquationsLoop eqs f s m line := by
  induction n generalizing m line with
  | zero =>
    have hl : line = [] := List.length_eq_zero.mp (by omega)
    subst hl
    cases m <;> rfl
  | succ n ih =>
    cases line with
    | nil => cases m <;> rfl
    | cons c rest =>
      cases m with
      | zero => simp at hm
      | succ m =>
        simp only [List.length_cons, Nat.add_le_add_iff_right] at hn hm
        have hd : (rest.dropWhile identifierLegal).length ≤ rest.length :=
          (List.dropWhile_sublist identifierLegal).length_le
        simp only [insertEquationsLoop]
        rw [ih m rest hn hm,
          ih m (rest.dropWhile identifierLegal) (by omega) (by omega)]

theorem insertEquationsLoop_nil (eqs : List Equation) (f s : Int) (n : Nat) :
    insertEquationsLoop eqs f s n [] = [] := by
  cases n <;> rfl

theorem charAt_eq_getElem (txt : wstring) (pos : Nat) (h : pos < txt.length) :
    charAt txt pos = txt[pos] := by
  rw [charAt, List.getD_eq_getElem _ _ h]

theorem take_length_takeWhile (p : Nat → Bool) (l : wstring) :
    l.take (l.takeWhile p).length = l.takeWhile p :=
  (congrArg (List.take (l.takeWhile p).length) (List.takeWhile_append_dropWhile p l).symm).trans
    (List.take_left' rfl)

theorem drop_length_takeWhile (p : Nat → Bool) (l : wstring) :
    l.drop (l.takeWhile p).length = l.dropWhile p :=
  (congrArg (List.drop (l.takeWhile p).length) (List.takeWhile_append_dropWhile p l).symm).trans
    (List.drop_left' rfl)

theorem wordEnd_eq (txt : wstring) (fuel pos : Nat) (h : txt.length ≤ pos + fuel) :
    wordEnd txt fuel pos = pos + ((txt.drop pos).takeWhile identifierLegal).length := by
  induction fuel generalizing pos with
  | zero =>
    rw [List.drop_eq_nil_of_le (by omega)]
    rfl
  | succ fuel ih =>
    simp only [wordEnd]
    by_cases hpos : pos < txt.length
    · rw [List.drop_eq_getElem_cons hpos, List.takeWhile_cons, charAt_eq_getElem txt pos hpos]
      by_cases hc : identifierLegal txt[pos] = true
      · simp only [hc, hpos, and_self, if_true, List.length_cons]
        rw [ih (pos + 1) (by omega)]
        omega
      · simp [hc]
    · rw [List.drop_eq_nil_of_le (by omega)]
      simp [hpos]

theorem insertEquationsFrom_eq (eqs : List Equation) (txt : wstring) (f s : Int)
    (fuel pos : Nat) (result : wstring) (h : txt.length ≤ pos + fuel) :
    insertEquationsFrom eqs txt f s fuel pos result =
      result ++ insertEquationsLoop eqs f s (txt.length - pos) (txt.drop pos) := by
  induction fuel generalizing pos result with
  | zero =>
    rw [List.drop_eq_nil_of_le (by omega), insertEquationsLoop_nil]
    simp [insertEquationsFrom]
  | succ fuel ih =>
    simp only [insertEquationsFrom]
    by_cases hpos : pos < txt.length
    · have hk : txt.length - pos = (txt.length - (pos + 1)) + 1 := by omega
      have hdrop := List.drop_eq_getElem_cons hpos
      have hlen : (txt.drop (pos + 1)).length = txt.length - (pos + 1) := by simp
      simp only [hpos, if_true, charAt_eq_getElem txt pos hpos]
      rw [hdrop, hk]
      by_cases hc : identifierLegal txt[pos] = true
      · have hend := wordEnd_eq txt txt.length (pos + 1) (by omega)
        have hword : substr txt pos (wordEnd txt txt.length (pos + 1) - pos) =
            txt[pos] :: (txt.drop (pos + 1)).takeWhile identifierLegal := by
          rw [hend, substr, hdrop]
          have h1 : pos + 1 + ((txt.drop (pos + 1)).takeWhile identifierLegal).length - pos
              = ((txt.drop (pos + 1)).takeWhile identifierLegal).length + 1 := by omega
          rw [h1, List.take_succ_cons, take_length_takeWhile]
        have hrest : txt.drop (wordEnd txt txt.length (pos + 1)) =
            (txt.drop (pos + 1)).dropWhile identifierLegal := by
          rw [hend, ← List.drop_drop, drop_length_takeWhile]
        have hge : pos + 1 ≤ wordEnd txt txt.length (pos + 1) := by
          rw [hend]; omega
        have hfuel : insertEquationsLoop eqs f s
              (txt.length - wordEnd txt txt.length (pos + 1))
              ((txt.drop (pos + 1)).dropWhile identifierLegal) =
            insertEquationsLoop eqs f s (txt.length - (pos + 1))
              ((txt.drop (pos + 1)).dropWhile identifierLegal) := by
          apply insertEquationsLoop_fuel
          · rw [← hrest]; simp
          · have := (List.dropWhile_sublist identifierLegal
              (l := txt.drop (pos + 1))).length_le
            omega
        simp only [hc, Bool.true_eq_false, if_false, hword, insertEquationsLoop]
        cases hfe : findEquation eqs
            (txt[pos] :: (txt.drop (pos + 1)).takeWhile identifierLegal) f s with
        | none =>
          simp only []
          rw [ih _ _ (by omega), hrest, hfuel, List.append_assoc]
        | some value =>
          simp only []
          rw [ih _ _ (by omega), hrest, hfuel, List.append_assoc]
      · have hc2 : identifierLegal txt[pos] = false := by simpa using hc
        simp only [hc2, if_true, insertEquationsLoop]
        rw [ih (pos + 1) _ (by omega)]
        simp
    · rw [List.drop_eq_nil_of_le (by omega), insertEquationsLoop_nil]
      simp [hpos]

/-- The loop of the source computes the scan by recursion on the rest of the
line. -/
theorem insertEquations_eq_loop (t : SymbolTable) (line : wstring) (f s : Int) :
    t.insertEquations line f s = insertEquationsLoop t.equations f s line.length line := by
  rw [SymbolTable.insertEquations,
    insertEquationsFrom_eq t.equations line f s line.length 0 [] (by omega)]
  simp

theorem insertEquations_nil (t : SymbolTable) (f s : Int) : t.insertEquations [] f s = [] := rfl

theorem insertEquations_cons_illegal (t : SymbolTable) (f s : Int) (c : Nat) (rest : wstring)
    (hc : identifierLegal c = false) :
    t.insertEquations (c :: rest) f s = c :: t.insertEquations rest f s := by
  simp [insertEquations_eq_loop, insertEquationsLoop, hc]

theorem insertEquations_cons_legal (t : SymbolTable) (f s : Int) (c : Nat) (rest : wstring)
    (hc : identifierLegal c = true) :
    t.insertEquations (c :: rest) f s =
      (match findEquation t.equations (c :: rest.takeWhile identifierLegal) f s with
        | some value => value
        | none => c :: rest.takeWhile identifierLegal) ++
        t.insertEquations (rest.dropWhile identifierLegal) f s := by
  have hd : (rest.dropWhile identifierLegal).length ≤ rest.length :=
    (List.dropWhile_sublist identifierLegal).length_le
  simp only [insertEquations_eq_loop, insertEquationsLoop, hc, List.length_cons,
    Bool.true_eq_false, if_false]
  rw [insertEquationsLoop_fuel t.equations f s rest.length
    (rest.dropWhile identifierLegal).length _ hd (le_refl _)]

theorem findEquation_none (eqs : List Equation) (word : wstring) (f s : Int)
    (h : ∀ e ∈ eqs, e.inScope f s → e.key ≠ word) : findEquation eqs word f s = none := by
  induction eqs with
  | nil => rfl
  | cons e rest ih =>
    have hrest := ih (fun e2 he2 => h e2 (List.mem_cons_of_mem _ he2))
    simp only [findEquation]
    split_ifs with h1 h2 h3
    · exact hrest
    · exact hrest
    · exact absurd (not_not.mp h3) (h e (List.mem_cons_self _ _) h1)
    · exact hrest

theorem findEquation_append (l1 l2 : List Equation) (word : wstring) (f s : Int)
    (h : findEquation l1 word f s = none) :
    findEquation (l1 ++ l2) word f s = findEquation l2 word f s := by
  induction l1 with
  | nil => rfl
  | cons e rest ih =>
    simp only [findEquation, List.cons_append] at h ⊢
    split_ifs at h ⊢ with h1 h2 h3
    · exact ih h
    · exact ih h
    · exact ih h

theorem head?_dropWhile_illegal (rest : wstring) :
    ∀ c ∈ (rest.dropWhile identifierLegal).head?, identifierLegal c = false := by
  intro c hc
  have := List.head?_dropWhile_not identifierLegal rest
  rw [Option.mem_def] at hc
  rw [hc] at this
  exact this

/-- The scanner treats the two sides of a word boundary apart: when the last
character of `pre` or the first character of `rest` is not identifier-legal,
the scan of `pre ++ rest` is the scan of `pre` followed by the scan of
`rest`. -/
theorem insertEquations_append (t : SymbolTable) (f s : Int) (pre rest : wstring)
    (hb : (∀ c ∈ pre.getLast?, identifierLegal c = false) ∨
      (∀ c ∈ rest.head?, identifierLegal c = false)) :
    t.insertEquations (pre ++ rest) f s =
      t.insertEquations pre f s ++ t.insertEquations rest f s := by
  obtain ⟨n, hlen⟩ : ∃ n, pre.length = n := ⟨_, rfl⟩
  induction n using Nat.strong_induction_on generalizing pre with
  | _ n ih =>
    cases pre with
    | nil => simp [insertEquations_nil]
    | cons c p =>
      by_cases hc : identifierLegal c = true
      · rw [List.cons_append, insertEquations_cons_legal t f s c (p ++ rest) hc,
          insertEquations_cons_legal t f s c p hc]
        by_cases hall : ∀ x ∈ p, identifierLegal x = true
        · -- the whole of `pre` is one word, so `rest` starts at a boundary
          have hrest : ∀ x ∈ rest.head?, identifierLegal x = false := by
            rcases hb with hb | hb
            · exfalso
              have hmem : ∀ x ∈ (c :: p), identifierLegal x = true := by
                intro x hx
                rcases List.mem_cons.mp hx with hx | hx
                · rw [hx]; exact hc
                · exact hall x hx
              cases hl : (c :: p).getLast? with
              | none => simp at hl
              | some y =>
                have hy := hb y (by rw [hl]; rfl)
                have hy2 := hmem y (List.mem_of_getLast?_eq_some hl)
                rw [hy] at hy2
                exact Bool.false_ne_true hy2
            · exact hb
          have htake : rest.takeWhile identifierLegal = [] := by
            cases rest with
            | nil => rfl
            | cons x r =>
              have hx := hrest x (by simp)
              simp [List.takeWhile, hx]
          have hdrop : rest.dropWhile identifierLegal = rest := by
            have := List.takeWhile_append_dropWhile identifierLegal rest
            rw [htake] at this
            simpa using this
          rw [List.takeWhile_append_of_pos hall, List.dropWhile_append_of_pos hall, htake,
            hdrop, List.append_nil, List.takeWhile_eq_self_iff.mpr hall,
            List.dropWhile_eq_nil_iff.mpr hall, insertEquations_nil, List.append_nil]
        · -- the first word ends inside `pre`
          have hne : p.dropWhile identifierLegal ≠ [] := by
            intro e
            exact hall (List.dropWhile_eq_nil_iff.mp e)
          have htl : (p.takeWhile identifierLegal).length ≠ p.length := by
            intro e
            apply hall
            apply List.takeWhile_eq_self_iff.mp
            have h2 := List.takeWhile_append_dropWhile identifierLegal p
            have h3 : (p.dropWhile identifierLegal).length = 0 := by
              have := congrArg List.length h2
              rw [List.length_append] at this
              omega
            rw [List.length_eq_zero.mp h3, List.append_nil] at h2
            exact h2
          have hisE : (p.dropWhile identifierLegal).isEmpty = false := by
            cases hd : p.dropWhile identifierLegal with
            | nil => exact absurd hd hne
            | cons _ _ => rfl
          rw [List.takeWhile_append, List.dropWhile_append]
          simp only [htl, if_false, hisE, Bool.false_eq_true]
          have hlast : (c :: p).getLast? = (p.dropWhile identifierLegal).getLast? := by
            have h2 := List.takeWhile_append_dropWhile identifierLegal p
            have h3 : c :: p = (c :: p.takeWhile identifierLegal) ++
                p.dropWhile identifierLegal := by
              rw [List.cons_append, h2]
            rw [h3, List.getLast?_append]
            cases hl : (p.dropWhile identifierLegal).getLast? with
            | none => exact absurd (List.getLast?_eq_none_iff.mp hl) hne
            | some y => rfl
          have hd : (p.dropWhile identifierLegal).length ≤ p.length :=
            (List.dropWhile_sublist identifierLegal).length_le
          rw [ih (p.dropWhile identifierLegal).length
            (by rw [← hlen, List.length_cons]; omega) (p.dropWhile identifierLegal)
            (by rw [← hlast]; exact hb) rfl, List.append_assoc]
      · have hc2 : identifierLegal c = false := by simpa using hc
        rw [List.cons_append, insertEquations_cons_illegal t f s c (p ++ rest) hc2,
          insertEquations_cons_illegal t f s c p hc2, List.cons_append]
        congr 1
        apply ih p.length (by rw [← hlen]; simp) p _ rfl
        rcases hb with hb | hb
        · left
          intro x hx
          apply hb x
          cases p with
          | nil => simp at hx
          | cons y q => rw [List.getLast?_cons_cons]; exact hx
        · exact Or.inr hb

/-- A word of identifier-legal characters alone on the line is replaced by the
text of the first equation in scope that has its name, or kept. -/
theorem insertEquations_word (t : SymbolTable) (f s : Int) (w : wstring) (hne : w ≠ [])
    (hall : ∀ c ∈ w, identifierLegal c = true) :
    t.insertEquations w f s =
      (match findEquation t.equations w f s with
        | some value => value
        | none => w) := by
  cases w with
  | nil => exact absurd rfl hne
  | cons c r =>
    have hc := hall c (List.mem_cons_self _ _)
    have hr : ∀ x ∈ r, identifierLegal x = true :=
      fun x hx => hall x (List.mem_cons_of_mem _ hx)
    rw [insertEquations_cons_legal t f s c r hc, List.takeWhile_eq_self_iff.mpr hr,
      List.dropWhile_eq_nil_iff.mpr hr, insertEquations_nil, List.append_nil]

theorem identifierLegal_of_inAlphabet (c : Nat) (h : InAlphabet c) :
    identifierLegal c = true := by
  simp only [identifierLegal, isValidSymbolCharacter, isValidSymbolCharacterDefaultFirst,
    towlower, true_and]
  rcases h with h | h | h | h | h <;> split_ifs <;> first | rfl | omega

theorem identifierLegal_null : identifierLegal 0 = false := by decide

theorem identifierLegal_at : identifierLegal 64 = false := by decide

/-- C9: whole-word substitution.  Let `N` be a valid name, in the sense of the
specification, that does not begin with `@`, and let `addEquation(N, -1, -1, R)`
have succeeded on a reachable table.  For every line `pre ++ N ++ post` in
which `pre` is empty or ends with a character that is not identifier-legal and
`post` is empty or starts with such a character, and for every file and
section, `insertEquations` returns the scan of `pre`, then `R`, then the scan
of `post`. -/
theorem insertEquations_whole_word (t t1 : SymbolTable) (N R pre post : wstring) (f s : Int)
    (hr : Reachable t) (hvalid : ValidNameSpec N) (h0 : charAt N 0 ≠ 64)
    (hadd : t.addEquation N (-1) (-1) R = (true, t1))
    (hpre : ∀ c ∈ pre.getLast?, identifierLegal c = false)
    (hpost : ∀ c ∈ post.head?, identifierLegal c = false) :
    t1.insertEquations (pre ++ N ++ post) f s =
      t1.insertEquations pre f s ++ R ++ t1.insertEquations post f s := by
  obtain ⟨hv, hfind⟩ := addEquation_true t t1 N R (-1) (-1) hadd
  rw [addEquation_of_absent t N R (-1) (-1) hv hfind] at hadd
  simp only [Prod.mk.injEq, true_and] at hadd
  have hk := resolvedKey_global N (-1) (-1) h0
  rw [hk] at hfind hadd
  have hnone := no_equation_named t N (consistent_of_reachable t hr) h0 hfind
  have heqs : t1.equations = t.equations ++ [⟨N, R, -1, -1⟩] := by rw [← hadd]
  have hfe : findEquation t1.equations N f s = some R := by
    rw [heqs, findEquation_append _ _ _ _ _
      (findEquation_none t.equations N f s (fun e he _ => hnone e he))]
    simp [findEquation]
  obtain ⟨hne, _, _, _, hall⟩ := hvalid
  have hp0 : scopePrefixLength N = 0 := by
    cases N with
    | nil => rfl
    | cons x r =>
      have hx : x ≠ 64 := by simpa [charAt] using h0
      unfold scopePrefixLength
      split <;> simp_all
  rw [hp0, List.drop_zero] at hall
  have hlegal : ∀ c ∈ N, identifierLegal c = true :=
    fun c hc => identifierLegal_of_inAlphabet c (hall c hc)
  rw [List.append_assoc, insertEquations_append t1 f s pre (N ++ post) (Or.inl hpre),
    insertEquations_append t1 f s N post (Or.inr hpost),
    insertEquations_word t1 f s N hne hlegal, hfe, List.append_assoc]

/-- The example of the specification: with `SIZE` declared as `16` on the empty
table, the line `a = SIZE*2` becomes `a = 16*2`. -/
theorem insertEquations_whole_word_witness :
    (SymbolTable.empty.addEquation (wstr "SIZE") (-1) (-1) (wstr "16")).2.insertEquations
      (wstr "a = SIZE*2") 3 4 = wstr "a = 16*2" := by
  have e1 : wstr "a = SIZE*2" = wstr "a = " ++ wstr "SIZE" ++ wstr "*2" := by decide
  rw [e1, insertEquations_whole_word SymbolTable.empty
    (SymbolTable.empty.addEquation (wstr "SIZE") (-1) (-1) (wstr "16")).2 (wstr "SIZE")
    (wstr "16") (wstr "a = ") (wstr "*2") 3 4 reachable_empty (by decide) (by decide)
    (by decide) (by decide) (by decide)]
  decide

/-- A name with a null character, which `isValidSymbolName` accepts although it
is not valid in the sense of the specification, is never substituted: the name
made of `a` and the null character is declared by `addEquation` with the text
`16` on the empty table, yet on the line that is this name alone
`insertEquations` returns the line, because the scanner ends the word at the
null character. -/
theorem insertEquations_null_name :
    isValidSymbolName [97, 0] = true ∧ ¬ ValidNameSpec [97, 0] ∧
      (SymbolTable.empty.addEquation [97, 0] (-1) (-1) (wstr "16")).1 = true ∧
      (SymbolTable.empty.addEquation [97, 0] (-1) (-1) (wstr "16")).2.insertEquations
        [97, 0] 0 0 = [97, 0] := by
  decide

/-- When no maximal run of the line finds an equation, the scanner returns the
part of the line it is given, from any word boundary on. -/
theorem insertEquations_same_from (t : SymbolTable) (f s : Int) (line : wstring)
    (h : ∀ w, IsMaximalRun line w → findEquation t.equations w f s = none)
    (pre rest : wstring) (hline : line = pre ++ rest)
    (hb : (∀ c ∈ pre.getLast?, identifierLegal c = false) ∨
      (∀ c ∈ rest.head?, identifierLegal c = false)) :
    t.insertEquations rest f s = rest := by
  obtain ⟨n, hlen⟩ : ∃ n, rest.length = n := ⟨_, rfl⟩
  induction n using Nat.strong_induction_on generalizing pre rest with
  | _ n ih =>
    cases rest with
    | nil => rfl
    | cons c r =>
      by_cases hc : identifierLegal c = true
      · have hpre : ∀ x ∈ pre.getLast?, identifierLegal x = false := by
          rcases hb with hb | hb
          · exact hb
          · have := hb c (by simp)
            rw [hc] at this
            exact absurd this (by decide)
        have hsplit := List.takeWhile_append_dropWhile identifierLegal r
        have hrun : IsMaximalRun line (c :: r.takeWhile identifierLegal) := by
          refine ⟨pre, r.dropWhile identifierLegal, ?_, by simp, ?_, hpre,
            head?_dropWhile_illegal r⟩
          · rw [hline, List.append_assoc, List.cons_append, hsplit]
          · intro x hx
            rcases List.mem_cons.mp hx with hx | hx
            · rw [hx]; exact hc
            · exact List.mem_takeWhile_imp hx
        have hd : (r.dropWhile identifierLegal).length ≤ r.length :=
          (List.dropWhile_sublist identifierLegal).length_le
        rw [insertEquations_cons_legal t f s c r hc, h _ hrun]
        simp only
        rw [ih (r.dropWhile identifierLegal).length
          (by rw [← hlen, List.length_cons]; omega)
          (pre ++ (c :: r.takeWhile identifierLegal)) (r.dropWhile identifierLegal)
          (by rw [hline, List.append_assoc, List.cons_append, hsplit])
          (Or.inr (head?_dropWhile_illegal r)) rfl, List.cons_append, hsplit]
      · have hc2 : identifierLegal c = false := by simpa using hc
        rw [insertEquations_cons_illegal t f s c r hc2]
        congr 1
        apply ih r.length (by rw [← hlen]; simp) (pre ++ [c]) r (by rw [hline]; simp) _ rfl
        left
        intro x hx
        rw [List.getLast?_concat] at hx
        rw [Option.mem_def, Option.some.injEq] at hx
        rw [← hx]
        exact hc2

/-- C10: text that mentions no equation passes through unchanged.  When no
maximal run of identifier-legal characters of the line is the name of an
equation in scope for the file and the section, `insertEquations` returns the
line; so it does on a table without equations, and the word `SIZES` is not
substituted when only `SIZE` is declared. -/
theorem insertEquations_unchanged :
    (∀ (t : SymbolTable) (line : wstring) (f s : Int),
        (∀ w, IsMaximalRun line w → ∀ e ∈ t.equations, e.inScope f s → e.key ≠ w) →
        t.insertEquations line f s = line) ∧
      (∀ (t : SymbolTable) (line : wstring) (f s : Int), t.equations = [] →
        t.insertEquations line f s = line) ∧
      (∀ f s : Int,
        (SymbolTable.empty.addEquation (wstr "SIZE") (-1) (-1) (wstr "16")).2.insertEquations
          (wstr "SIZES") f s = wstr "SIZES") := by
  have main : ∀ (t : SymbolTable) (line : wstring) (f s : Int),
      (∀ w, IsMaximalRun line w → ∀ e ∈ t.equations, e.inScope f s → e.key ≠ w) →
      t.insertEquations line f s = line := by
    intro t line f s h
    exact insertEquations_same_from t f s line
      (fun w hw => findEquation_none t.equations w f s (h w hw)) [] line rfl
      (Or.inl (by simp))
  refine ⟨main, ?_, ?_⟩
  · intro t line f s he
    apply main
    intro w _ e hmem
    rw [he] at hmem
    simp at hmem
  · intro f s
    have e2 : (SymbolTable.empty.addEquation (wstr "SIZE") (-1) (-1) (wstr "16")).2.equations
        = [⟨wstr "SIZE", wstr "16", -1, -1⟩] := by decide
    have hl : (wstr "SIZE").length = 4 := by decide
    have hl2 : (wstr "SIZES").length = 5 := by decide
    rw [insertEquations_word _ f s (wstr "SIZES") (by decide) (by decide), e2]
    simp only [findEquation, hl, hl2]
    split_ifs <;> first | rfl | omega

/-- The line `SIZES` on the table that declares `SIZE` only: its one maximal
run is `SIZES`, which is not the name `SIZE`. -/
theorem insertEquations_unchanged_witness :
    (SymbolTable.empty.addEquation (wstr "SIZE") (-1) (-1) (wstr "16")).2.insertEquations
      (wstr "SIZES") 3 4 = wstr "SIZES" :=
  insertEquations_unchanged.1 _ (wstr "SIZES") 3 4 (by
    intro w hw e he _ hkey
    have e2 : (SymbolTable.empty.addEquation (wstr "SIZE") (-1) (-1) (wstr "16")).2.equations
        = [⟨wstr "SIZE", wstr "16", -1, -1⟩] := by decide
    rw [e2, List.mem_singleton] at he
    rw [he] at hkey
    obtain ⟨pre, post, hline, _, _, _, hpost⟩ := hw
    have e3 : wstr "SIZES" = [83, 73, 90, 69, 83] := by decide
    have e4 : wstr "SIZE" = [83, 73, 90, 69] := by decide
    rw [← hkey] at hline
    simp only [e3, e4] at hline
    cases pre with
    | nil =>
      simp only [List.nil_append, List.cons_append, List.cons.injEq, true_and] at hline
      rw [← hline] at hpost
      exact absurd (hpost 83 (by simp)) (by decide)
    | cons x pre2 =>
      have hlen := congrArg List.length hline
      simp only [List.length_cons, List.length_append, List.length_nil] at hlen
      have hp : pre2 = [] := List.length_eq_zero.mp (by omega)
      subst hp
      simp at hline)

/-! ## Scope of equations and substitution -/

theorem findEquation_cons_match (e : Equation) (rest : List Equation) (w : wstring) (f s : Int)
    (hs : e.inScope f s) (hk : e.key = w) :
    findEquation (e :: rest) w f s = some e.value := by
  unfold Equation.inScope at hs
  simp [findEquation, hs, hk]

theorem findEquation_cons_skip (e : Equation) (rest : List Equation) (w : wstring) (f s : Int)
    (h : ¬ (e.inScope f s ∧ e.key = w)) :
    findEquation (e :: rest) w f s = findEquation rest w f s := by
  unfold Equation.inScope at h
  simp only [findEquation]
  by_cases h1 : (e.file = -1 ∨ e.file = f) ∧ (e.section_ = -1 ∨ e.section_ = s)
  · have h2 : ¬ e.key = w := fun hk => h ⟨h1, hk⟩
    by_cases h3 : e.key.length = w.length
    · simp [h1, h2, h3]
    · simp [h1, h3]
  · simp [h1]

theorem findEquation_first (eqs : List Equation) (N R : wstring) (f s : Int)
    (h : IsFirstMatch eqs N R f s) : findEquation eqs N f s = some R := by
  obtain ⟨before, e, after, heq, hkey, hval, hscope, hbefore⟩ := h
  rw [heq, findEquation_append before (e :: after) N f s
    (findEquation_none before N f s hbefore), findEquation_cons_match e after N f s hscope hkey,
    hval]

theorem insertEquations_no_match (t : SymbolTable) (line : wstring) (f s : Int)
    (h : ∀ w, IsMaximalRun line w → findEquation t.equations w f s = none) :
    t.insertEquations line f s = line :=
  insertEquations_same_from t f s line h [] line rfl (Or.inl (by simp))

theorem insertEquations_no_equations (t : SymbolTable) (line : wstring) (f s : Int)
    (h : t.equations = []) : t.insertEquations line f s = line := by
  apply insertEquations_no_match
  intro w _
  rw [h]
  rfl

theorem legal_of_validNameSpec (N : wstring) (hvalid : ValidNameSpec N)
    (h0 : charAt N 0 ≠ 64) : N ≠ [] ∧ ∀ c ∈ N, identifierLegal c = true := by
  obtain ⟨hne, _, _, _, hall⟩ := hvalid
  have hp0 : scopePrefixLength N = 0 := by
    cases N with
    | nil => rfl
    | cons x r =>
      have hx : x ≠ 64 := by simpa [charAt] using h0
      unfold scopePrefixLength
      split <;> simp_all
  rw [hp0, List.drop_zero] at hall
  exact ⟨hne, fun c hc => identifierLegal_of_inAlphabet c (hall c hc)⟩

theorem isValidSymbolName_of_spec (N : wstring) (hvalid : ValidNameSpec N) :
    isValidSymbolName N = true := by
  rw [isValidSymbolName_iff]
  obtain ⟨h1, h2, h3, h4, h5⟩ := hvalid
  exact ⟨h1, h2, h3, h4, fun c hc => Or.inl (h5 c hc)⟩

/-- C19, counterexample: `addEquation` of the name `X` in file 3, section 4 on
the empty table succeeds, and the equation it appends holds file -1 and
section -1, not the file 3 and the section 4 of the caller. -/
theorem equation_record_is_normalised :
    isValidSymbolName (wstr "X") = true ∧
      (SymbolTable.empty.addEquation (wstr "X") 3 4 (wstr "1")).1 = true ∧
      (SymbolTable.empty.addEquation (wstr "X") 3 4 (wstr "1")).2.equations.getLast?
        = some ⟨wstr "X", wstr "1", -1, -1⟩ ∧
      (SymbolTable.empty.addEquation (wstr "X") 3 4 (wstr "1")).2.equations.getLast?
        ≠ some ⟨wstr "X", wstr "1", 3, 4⟩ := by
  decide

/-- C19, amended: on success `addEquation` appends exactly one equation, whose
name is `N`, whose text is the text given, and whose file and section are the
normalised ones, the same as in the key.  For a valid name on a table with no
symbol at the resolved key the call returns true and the last equation holds
the values `setFileSectionValues` leaves: -1 and -1 for a name without `@`,
the file and -1 for a name with a single `@`, the file and the section for a
name with `@@`. -/
theorem addEquation_record (t : SymbolTable) (N r : wstring) (f s : Int)
    (hv : isValidSymbolName N = true)
    (hfree : mapFind t.symbols (resolvedKey N f s) = none) :
    (t.addEquation N f s r).1 = true ∧
      (t.addEquation N f s r).2.equations = t.equations ++
        [⟨N, r, (setFileSectionValues N f s).1, (setFileSectionValues N f s).2⟩] ∧
      (t.addEquation N f s r).2.equations.getLast? =
        some ⟨N, r, (resolvedKey N f s).file, (resolvedKey N f s).section_⟩ ∧
      (charAt N 0 ≠ 64 → setFileSectionValues N f s = (-1, -1)) ∧
      (charAt N 0 = 64 → charAt N 1 ≠ 64 → setFileSectionValues N f s = (f, -1)) ∧
      (charAt N 0 = 64 → charAt N 1 = 64 → setFileSectionValues N f s = (f, s)) := by
  rw [addEquation_of_absent t N r f s hv hfree]
  refine ⟨rfl, rfl, by simp [resolvedKey], ?_, ?_, ?_⟩
  · intro h0
    simp [setFileSectionValues, h0]
  · intro h0 h1
    simp [setFileSectionValues, h0, h1]
  · intro h0 h1
    simp [setFileSectionValues, h0, h1]

/-- The file-scoped equation `@X` declared in file 3, section 4 on the empty
table is stored with file 3 and section -1. -/
theorem addEquation_record_witness :
    (SymbolTable.empty.addEquation (wstr "@X") 3 4 (wstr "1")).1 = true ∧
      (SymbolTable.empty.addEquation (wstr "@X") 3 4 (wstr "1")).2.equations =
        [⟨wstr "@X", wstr "1", 3, -1⟩] :=
  ⟨(addEquation_record SymbolTable.empty (wstr "@X") (wstr "1") 3 4 (by decide) (by decide)).1,
    (addEquation_record SymbolTable.empty (wstr "@X") (wstr "1") 3 4 (by decide)
      (by decide)).2.1⟩

/-- C15: `clear` is a full reset.  After `clear` the table is the freshly
constructed table: no symbol exists, the label list and the equation list are
empty, `insertEquations` returns every line as it is, and the next
`getUniqueLabelName` returns `__armips_label_00000000__`. -/
theorem clear_resets (t : SymbolTable) :
    t.clear = SymbolTable.empty ∧
      (∀ (N : wstring) (f s : Int), t.clear.symbolExists N f s = false) ∧
      t.clear.symbols = [] ∧ t.clear.labels = [] ∧ t.clear.equations = [] ∧
      t.clear.uniqueCount = 0 ∧
      (∀ (line : wstring) (f s : Int), t.clear.insertEquations line f s = line) ∧
      t.clear.getUniqueLabelName.1 = wstr "__armips_label_00000000__" := by
  refine ⟨rfl, ?_, rfl, rfl, rfl, rfl, ?_, ?_⟩
  · intro N f s
    by_cases hv : isValidSymbolName N = true
    · rw [symbolExists_of_valid _ N f s hv]
      rfl
    · have hv2 : isValidSymbolName N = false := by simpa using hv
      simp [SymbolTable.symbolExists, hv2]
  · intro line f s
    exact insertEquations_no_equations _ line f s rfl
  · show SymbolTable.empty.getUniqueLabelName.1 = wstr "__armips_label_00000000__"
    decide

/-- C12: equations are not expanded again.  When the equation `N` with the text
`R` is the first match in scope for the word `N`, `insertEquations` on the
line `N` returns `R` as it is, whatever `R` contains; with `A` declared as `B`
and `B` as `C`, the line `A` becomes `B`, not `C`. -/
theorem insertEquations_not_reexpanded :
    (∀ (t : SymbolTable) (N R : wstring) (f s : Int), N ≠ [] →
        (∀ c ∈ N, identifierLegal c = true) → IsFirstMatch t.equations N R f s →
        t.insertEquations N f s = R) ∧
      (∀ f s : Int,
        ((SymbolTable.empty.addEquation (wstr "A") (-1) (-1) (wstr "B")).2.addEquation
          (wstr "B") (-1) (-1) (wstr "C")).2.insertEquations (wstr "A") f s = wstr "B") := by
  have main : ∀ (t : SymbolTable) (N R : wstring) (f s : Int), N ≠ [] →
      (∀ c ∈ N, identifierLegal c = true) → IsFirstMatch t.equations N R f s →
      t.insertEquations N f s = R := by
    intro t N R f s hne hall hfirst
    rw [insertEquations_word t f s N hne hall, findEquation_first t.equations N R f s hfirst]
  refine ⟨main, ?_⟩
  intro f s
  apply main _ _ _ f s (by decide) (by decide)
  refine ⟨[], ⟨wstr "A", wstr "B", -1, -1⟩, [⟨wstr "B", wstr "C", -1, -1⟩], by decide, rfl, rfl,
    ⟨Or.inl rfl, Or.inl rfl⟩, ?_⟩
  intro e2 he2
  simp at he2

/-- The equation `B`, declared as `C` after `A` was declared as `B`, is the
first match for the word `B` in file 3, section 4, and the line `B` becomes
`C`. -/
theorem insertEquations_not_reexpanded_witness :
    ((SymbolTable.empty.addEquation (wstr "A") (-1) (-1) (wstr "B")).2.addEquation
      (wstr "B") (-1) (-1) (wstr "C")).2.insertEquations (wstr "B") 3 4 = wstr "C" :=
  insertEquations_not_reexpanded.1 _ (wstr "B") (wstr "C") 3 4 (by decide) (by decide)
    ⟨[⟨wstr "A", wstr "B", -1, -1⟩], ⟨wstr "B", wstr "C", -1, -1⟩, [], by decide, rfl, rfl,
      ⟨Or.inl rfl, Or.inl rfl⟩, by
        intro e2 he2 _
        rw [List.mem_singleton] at he2
        rw [he2]
        decide⟩

/-- C11, counterexample: the equation `X`, declared with the text `1` in file 3
on the empty table, is substituted when `insertEquations` is called with
file 4. -/
theorem global_equation_substituted_elsewhere :
    isValidSymbolName (wstr "X") = true ∧
      (SymbolTable.empty.addEquation (wstr "X") 3 0 (wstr "1")).1 = true ∧
      (SymbolTable.empty.addEquation (wstr "X") 3 0 (wstr "1")).2.insertEquations
        (wstr "X") 4 0 = wstr "1" ∧
      (SymbolTable.empty.addEquation (wstr "X") 3 0 (wstr "1")).2.insertEquations
        (wstr "X") 4 0 ≠ wstr "X" := by
  decide

/-- C11, amended: scoped substitution concerns the names that keep their file.
After `addEquation(N, f, s, R)` has succeeded on the empty table for a name
`N` that begins with `@`, `insertEquations` returns the line `N` unchanged in
every file and section, among them every file other than `f`.  An equation
whose name does not begin with `@` is global: for such a name, valid in the
sense of the specification, `insertEquations` returns `R` for the line `N` in
every file and section. -/
theorem equation_substitution_scope (N R : wstring) (f s : Int)
    (hadd : (SymbolTable.empty.addEquation N f s R).1 = true) :
    (charAt N 0 = 64 → ∀ f2 s2 : Int,
        (SymbolTable.empty.addEquation N f s R).2.insertEquations N f2 s2 = N) ∧
      (charAt N 0 ≠ 64 → ValidNameSpec N → ∀ f2 s2 : Int,
        (SymbolTable.empty.addEquation N f s R).2.insertEquations N f2 s2 = R) := by
  have hv : isValidSymbolName N = true := by
    by_contra hv
    have hv2 : isValidSymbolName N = false := by simpa using hv
    rw [addEquation_of_invalid _ N R f s hv2] at hadd
    exact absurd hadd (by decide)
  have hfree : mapFind SymbolTable.empty.symbols (resolvedKey N f s) = none := rfl
  rw [addEquation_of_absent SymbolTable.empty N R f s hv hfree]
  constructor
  · intro h0 f2 s2
    apply insertEquations_no_match
    intro w hw
    apply findEquation_none
    intro e he _ hkey
    simp only [SymbolTable.empty, List.nil_append, List.mem_singleton] at he
    rw [he] at hkey
    simp only at hkey
    obtain ⟨_, _, _, hwne, hlegal, _, _⟩ := hw
    rw [← hkey] at hlegal
    cases N with
    | nil => simp [charAt] at h0
    | cons x r =>
      have hx : x = 64 := by simpa [charAt] using h0
      have := hlegal x (List.mem_cons_self _ _)
      rw [hx, identifierLegal_at] at this
      exact absurd this (by decide)
  · intro h0 hvalid f2 s2
    obtain ⟨hne, hall⟩ := legal_of_validNameSpec N hvalid h0
    rw [insertEquations_word _ f2 s2 N hne hall]
    have hk := resolvedKey_global N f s h0
    simp only [SymbolTable.empty, List.nil_append, hk]
    rw [findEquation_cons_match _ _ N f2 s2 ⟨Or.inl rfl, Or.inl rfl⟩ rfl]

/-- The file-scoped equation `@X` of file 3 passes through unchanged in
file 4. -/
theorem equation_substitution_scope_witness :
    (SymbolTable.empty.addEquation (wstr "@X") 3 0 (wstr "1")).2.insertEquations
      (wstr "@X") 4 0 = wstr "@X" :=
  (equation_substitution_scope (wstr "@X") (wstr "1") 3 0 (by decide)).1 (by decide) 4 0

theorem findEquation_scope_independent (eqs : List Equation) (w : wstring) (f s f2 s2 : Int)
    (hn : ∀ e ∈ eqs, setFileSectionValues e.key e.file e.section_ = (e.file, e.section_))
    (h0 : charAt w 0 ≠ 64) :
    findEquation eqs w f s = findEquation eqs w f2 s2 := by
  induction eqs with
  | nil => rfl
  | cons e rest ih =>
    have ihr := ih (fun e2 he2 => hn e2 (List.mem_cons_of_mem _ he2))
    by_cases hk : e.key = w
    · have h1 := hn e (List.mem_cons_self _ _)
      rw [hk] at h1
      simp only [setFileSectionValues, h0, if_false, Prod.mk.injEq] at h1
      have hs : ∀ a b : Int, e.inScope a b := fun a b =>
        ⟨Or.inl h1.1.symm, Or.inl h1.2.symm⟩
      rw [findEquation_cons_match e rest w f s (hs f s) hk,
        findEquation_cons_match e rest w f2 s2 (hs f2 s2) hk]
    · rw [findEquation_cons_skip e rest w f s (fun h => hk h.2),
        findEquation_cons_skip e rest w f2 s2 (fun h => hk h.2), ihr]

theorem insertEquationsLoop_congr (eqs : List Equation) (f s f2 s2 : Int)
    (h : ∀ w : wstring, w ≠ [] → (∀ c ∈ w, identifierLegal c = true) →
      findEquation eqs w f s = findEquation eqs w f2 s2)
    (n : Nat) (line : wstring) :
    insertEquationsLoop eqs f s n line = insertEquationsLoop eqs f2 s2 n line := by
  induction n generalizing line with
  | zero => rfl
  | succ n ih =>
    cases line with
    | nil => rfl
    | cons c rest =>
      simp only [insertEquationsLoop]
      by_cases hc : identifierLegal c = true
      · have hw := h (c :: rest.takeWhile identifierLegal) (by simp) (by
          intro x hx
          rcases List.mem_cons.mp hx with hx | hx
          · rw [hx]; exact hc
          · exact List.mem_takeWhile_imp hx)
        simp only [hc, Bool.true_eq_false, if_false, hw, ih]
      · have hc2 : identifierLegal c = false := by simpa using hc
        simp only [hc2, if_true, ih]

/-- C20: on a reachable table the result of `insertEquations` does not depend
on the current file and section.  An equation whose name begins with `@` is
never the candidate word, because `@` is not identifier-legal, and every other
equation is stored with file -1 and section -1. -/
theorem insertEquations_scope_independent (t : SymbolTable) (hr : Reachable t)
    (line : wstring) (f s f2 s2 : Int) :
    t.insertEquations line f s = t.insertEquations line f2 s2 := by
  rw [insertEquations_eq_loop, insertEquations_eq_loop]
  apply insertEquationsLoop_congr
  intro w hne hall
  apply findEquation_scope_independent t.equations w f s f2 s2
    (consistent_of_reachable t hr).2.2.2
  cases w with
  | nil => exact absurd rfl hne
  | cons x r =>
    intro hx
    have hx2 : x = 64 := by simpa [charAt] using hx
    have := hall x (List.mem_cons_self _ _)
    rw [hx2, identifierLegal_at] at this
    exact absurd this (by decide)

/-- The table with the equations `SIZE` and `@loc`, declared in file 1,
section 2, gives the same line in file 1, section 2 as in file 7, section 9. -/
theorem insertEquations_scope_independent_witness :
    (run SymbolTable.empty [Op.addEquation (wstr "SIZE") 1 2 (wstr "16"),
        Op.addEquation (wstr "@loc") 1 2 (wstr "3")]).insertEquations
        (wstr "SIZE+@loc") 1 2 =
      (run SymbolTable.empty [Op.addEquation (wstr "SIZE") 1 2 (wstr "16"),
        Op.addEquation (wstr "@loc") 1 2 (wstr "3")]).insertEquations
        (wstr "SIZE+@loc") 7 9 :=
  insertEquations_scope_independent _ ⟨_, rfl⟩ (wstr "SIZE+@loc") 1 2 7 9

/-! ## The order of the keys -/

theorem wstringCompare_lt_iff_lex (a b : wstring) :
    wstringCompare a b < 0 ↔ List.Lex (fun x y : Nat => x < y) a b := by
  induction a generalizing b with
  | nil =>
    cases b with
    | nil => simp [wstringCompare]
    | cons y ys => simp [wstringCompare, List.Lex.nil]
  | cons x xs ih =>
    cases b with
    | nil => simp [wstringCompare]
    | cons y ys =>
      simp only [wstringCompare]
      by_cases hxy : x < y
      · simp only [hxy, if_true]
        exact ⟨fun _ => List.Lex.rel hxy, fun _ => by decide⟩
      · by_cases hyx : y < x
        · simp only [hxy, hyx, if_true, if_false]
          constructor
          · intro h
            exact absurd h (by decide)
          · intro h
            cases h with
            | cons h2 => exact absurd hyx (lt_irrefl _)
            | rel h2 => exact absurd h2 hxy
        · have hEq : x = y := by omega
          subst hEq
          simp only [lt_self_iff_false, if_false]
          rw [ih ys]
          constructor
          · intro h
            exact List.Lex.cons h
          · intro h
            cases h with
            | cons h2 => exact h2
            | rel h2 => exact absurd h2 (lt_irrefl _)

theorem wstringCompare_trans (a b c : wstring) (h1 : wstringCompare a b < 0)
    (h2 : wstringCompare b c < 0) : wstringCompare a c < 0 := by
  induction a generalizing b c with
  | nil =>
    cases c with
    | nil =>
      cases b with
      | nil => simp [wstringCompare] at h1
      | cons y ys => simp [wstringCompare] at h2
    | cons z zs => simp [wstringCompare]
  | cons x xs ih =>
    cases b with
    | nil => simp [wstringCompare] at h1
    | cons y ys =>
      cases c with
      | nil => simp [wstringCompare] at h2
      | cons z zs =>
        simp only [wstringCompare] at h1 h2 ⊢
        by_cases hxy : x < y
        · by_cases hyz : y < z
          · have hxz : x < z := by omega
            simp [hxz]
          · by_cases hzy : z < y
            · simp [hyz, hzy] at h2
            · have hxz : x < z := by omega
              simp [hxz]
        · by_cases hyx : y < x
          · simp [hxy, hyx] at h1
          · have hEq : x = y := by omega
            subst hEq
            simp only [lt_self_iff_false, if_false] at h1
            by_cases hxz : x < z
            · simp [hxz]
            · by_cases hzx : z < x
              · simp [hxz, hzx] at h2
              · simp only [hxz, hzx, if_false] at h2 ⊢
                exact ih ys zs h1 h2

theorem SymbolKey.lt_iff_lexLt (a b : SymbolKey) :
    SymbolKey.lt a b = true ↔ SymbolKey.lexLt a b := by
  unfold SymbolKey.lt SymbolKey.lexLt
  rw [← wstringCompare_lt_iff_lex]
  by_cases hf : a.file = b.file
  · by_cases hs : a.section_ = b.section_
    · simp [hf, hs]
    · simp only [hf, hs, ne_eq, not_true_eq_false, if_false, not_false_eq_true, if_true,
        decide_eq_true_eq, lt_self_iff_false, true_and, false_and, or_false, false_or]
  · simp only [hf, ne_eq, not_false_eq_true, if_true, decide_eq_true_eq, false_and, or_false]

theorem SymbolKey.lexLt_trans (a b c : SymbolKey) (h1 : SymbolKey.lexLt a b)
    (h2 : SymbolKey.lexLt b c) : SymbolKey.lexLt a c := by
  unfold SymbolKey.lexLt at h1 h2 ⊢
  simp only [← wstringCompare_lt_iff_lex] at h1 h2 ⊢
  rcases h1 with h1 | ⟨e1, h1 | ⟨e1s, h1⟩⟩ <;> rcases h2 with h2 | ⟨e2, h2 | ⟨e2s, h2⟩⟩
  · left; omega
  · left; omega
  · left; omega
  · left; omega
  · right; exact ⟨by omega, Or.inl (by omega)⟩
  · right; exact ⟨by omega, Or.inl (by omega)⟩
  · left; omega
  · right; exact ⟨by omega, Or.inl (by omega)⟩
  · right
    exact ⟨by omega, Or.inr ⟨by omega, wstringCompare_trans _ _ _ h1 h2⟩⟩

/-- C18: `operator<` on keys is the lexicographic order on
`(file, section, name)` and a strict total order: it is irreflexive and
transitive, and of `a < b`, `b < a` and the equality of all three fields
exactly one holds, so two keys are equivalent for the map exactly when their
three fields are equal. -/
theorem symbolKey_strict_total_order :
    (∀ a b : SymbolKey, SymbolKey.lt a b = true ↔ SymbolKey.lexLt a b) ∧
      (∀ a : SymbolKey, SymbolKey.lt a a = false) ∧
      (∀ a b c : SymbolKey, SymbolKey.lt a b = true → SymbolKey.lt b c = true →
        SymbolKey.lt a c = true) ∧
      (∀ a b : SymbolKey,
        (SymbolKey.lt a b = true ∧ SymbolKey.lt b a = false ∧
            ¬ (a.file = b.file ∧ a.section_ = b.section_ ∧ a.name = b.name)) ∨
          (SymbolKey.lt a b = false ∧ SymbolKey.lt b a = true ∧
            ¬ (a.file = b.file ∧ a.section_ = b.section_ ∧ a.name = b.name)) ∨
          (SymbolKey.lt a b = false ∧ SymbolKey.lt b a = false ∧
            (a.file = b.file ∧ a.section_ = b.section_ ∧ a.name = b.name))) ∧
      (∀ a b : SymbolKey, SymbolKey.equiv a b = true ↔
        (a.file = b.file ∧ a.section_ = b.section_ ∧ a.name = b.name)) := by
  have htrans : ∀ a b c : SymbolKey, SymbolKey.lt a b = true → SymbolKey.lt b c = true →
      SymbolKey.lt a c = true := by
    intro a b c h1 h2
    rw [SymbolKey.lt_iff_lexLt] at h1 h2 ⊢
    exact SymbolKey.lexLt_trans a b c h1 h2
  have hfields : ∀ a b : SymbolKey,
      a = b ↔ (a.file = b.file ∧ a.section_ = b.section_ ∧ a.name = b.name) := by
    intro a b
    constructor
    · intro h
      subst h
      exact ⟨rfl, rfl, rfl⟩
    · intro h
      obtain ⟨an, af, as⟩ := a
      obtain ⟨bn, bf, bs⟩ := b
      simp only at h
      obtain ⟨h1, h2, h3⟩ := h
      subst h1
      subst h2
      subst h3
      rfl
  have hasymm : ∀ a b : SymbolKey, SymbolKey.lt a b = true → SymbolKey.lt b a = false := by
    intro a b h1
    by_contra h2
    have h3 : SymbolKey.lt b a = true := by simpa using h2
    have h4 := htrans a b a h1 h3
    rw [SymbolKey.lt_irrefl] at h4
    exact Bool.false_ne_true h4
  refine ⟨SymbolKey.lt_iff_lexLt, SymbolKey.lt_irrefl, htrans, ?_, ?_⟩
  · intro a b
    by_cases hab : SymbolKey.lt a b = true
    · left
      refine ⟨hab, hasymm a b hab, ?_⟩
      rw [← hfields]
      intro e
      rw [e, SymbolKey.lt_irrefl] at hab
      exact Bool.false_ne_true hab
    · have hab2 : SymbolKey.lt a b = false := by simpa using hab
      by_cases hba : SymbolKey.lt b a = true
      · right; left
        refine ⟨hab2, hba, ?_⟩
        rw [← hfields]
        intro e
        rw [e, SymbolKey.lt_irrefl] at hba
        exact Bool.false_ne_true hba
      · have hba2 : SymbolKey.lt b a = false := by simpa using hba
        right; right
        refine ⟨hab2, hba2, ?_⟩
        rw [← hfields]
        apply (SymbolKey.equiv_iff a b).1
        simp [SymbolKey.equiv, hab2, hba2]
  · intro a b
    rw [SymbolKey.equiv_iff, hfields]

/-- The keys `(a, 1, 5)`, `(a, 2, 0)` and `(b, 2, 0)` are in this order, the file
deciding before the section and the name. -/
theorem symbolKey_strict_total_order_witness :
    SymbolKey.lt ⟨wstr "a", 1, 5⟩ ⟨wstr "b", 2, 0⟩ = true :=
  symbolKey_strict_total_order.2.2.1 ⟨wstr "a", 1, 5⟩ ⟨wstr "a", 2, 0⟩ ⟨wstr "b", 2, 0⟩
    (by decide) (by decide)

/-! ## Generated names -/

theorem hexDigitValue_hexDigit (d : Nat) (h : d < 16) : hexDigitValue (hexDigit d) = some d := by
  unfold hexDigitValue hexDigit
  by_cases h10 : d < 10
  · have h1 : 48 ≤ 48 + d ∧ 48 + d ≤ 57 := by omega
    simp only [h10, if_true, h1, and_self]
    congr 1
    omega
  · have h1 : ¬ (48 ≤ 65 + (d - 10) ∧ 65 + (d - 10) ≤ 57) := by omega
    have h2 : 65 ≤ 65 + (d - 10) ∧ 65 + (d - 10) ≤ 70 := by omega
    simp only [h10, if_false, h1, h2, and_self, if_true]
    congr 1
    omega

theorem formatHex08_eq (v : Nat) :
    formatHex08 v =
      [hexDigit (v % 4294967296 / 268435456 % 16), hexDigit (v % 4294967296 / 16777216 % 16),
        hexDigit (v % 4294967296 / 1048576 % 16), hexDigit (v % 4294967296 / 65536 % 16),
        hexDigit (v % 4294967296 / 4096 % 16), hexDigit (v % 4294967296 / 256 % 16),
        hexDigit (v % 4294967296 / 16 % 16), hexDigit (v % 4294967296 / 1 % 16)] := by
  have hr : (List.range 8).reverse = [7, 6, 5, 4, 3, 2, 1, 0] := by decide
  simp only [formatHex08, hr, List.map_cons, List.map_nil]
  norm_num

theorem formatHex08_isHex8 (v : Nat) (h : v < 2 ^ 32) : IsHex8 (formatHex08 v) v := by
  have hv : v % 4294967296 = v := Nat.mod_eq_of_lt (by simpa using h)
  refine ⟨by rw [formatHex08_eq]; rfl, ?_⟩
  rw [formatHex08_eq, hv]
  simp only [hexValue, List.foldl_cons, List.foldl_nil,
    hexDigitValue_hexDigit _ (Nat.mod_lt _ (by decide : 0 < 16))]
  congr 1
  have h2 : v < 4294967296 := by simpa using h
  omega

theorem getUniqueLabelName_eq (t : SymbolTable) :
    t.getUniqueLabelName = (uniqueLabelName t.uniqueCount,
      { t with uniqueCount := t.uniqueCount + 1 }) := rfl

theorem embeddedCounter_uniqueLabelName (c : Nat) (h : c < 2 ^ 32) :
    embeddedCounter (uniqueLabelName c) = some c := by
  have hp : (wstr "__armips_label_").length = 15 := by decide
  have h8 := formatHex08_isHex8 c h
  unfold embeddedCounter substr uniqueLabelName
  rw [List.append_assoc, List.drop_left' hp, List.take_left' h8.1]
  exact h8.2

theorem uniqueLabelName_injective (a b : Nat) (ha : a < 2 ^ 32) (hb : b < 2 ^ 32)
    (h : uniqueLabelName a = uniqueLabelName b) : a = b := by
  have h1 := embeddedCounter_uniqueLabelName a ha
  rw [h, embeddedCounter_uniqueLabelName b hb] at h1
  exact (Option.some.inj h1).symm

theorem uniqueLabelNames_eq (n : Nat) (t : SymbolTable) :
    uniqueLabelNames n t =
      ((List.range' t.uniqueCount n).map uniqueLabelName,
        { t with uniqueCount := t.uniqueCount + n }) := by
  induction n generalizing t with
  | zero => rfl
  | succ n ih =>
    simp only [uniqueLabelNames, ih, getUniqueLabelName_eq, List.range'_succ, List.map_cons]
    congr 2
    omega

theorem filterMap_of_map_some {α β : Type} (f : α → Option β) (l : List α) (g : List β)
    (h : l.map f = g.map some) : l.filterMap f = g := by
  induction l generalizing g with
  | nil =>
    cases g with
    | nil => rfl
    | cons b g => simp at h
  | cons a l ih =>
    cases g with
    | nil => simp at h
    | cons b g =>
      simp only [List.map_cons, List.cons.injEq] at h
      rw [List.filterMap_cons, h.1, ih g h.2]

/-- C13: `getUniqueLabelName` mints distinct names in the order of the counter.
On a table whose counter is `c`, with `c + n` at most 2^32, the call number
`k` of `n` successive calls (counted from 0) returns `__armips_label_`, then
the value `c + k` as 8 zero-padded uppercase hexadecimal digits, then `__`;
a call adds one to the counter and changes nothing else; the `n` names are
pairwise distinct and their embedded counters are `c`, `c + 1`, and so on,
strictly increasing. -/
theorem getUniqueLabelName_sequence (t : SymbolTable) (n : Nat)
    (h : t.uniqueCount + n ≤ 2 ^ 32) :
    (∀ k, k < n → ∃ digits : wstring,
        (uniqueLabelNames n t).1[k]? = some (wstr "__armips_label_" ++ digits ++ wstr "__") ∧
        IsHex8 digits (t.uniqueCount + k)) ∧
      (uniqueLabelNames n t).1.length = n ∧
      (uniqueLabelNames n t).2 = { t with uniqueCount := t.uniqueCount + n } ∧
      t.getUniqueLabelName.2 = { t with uniqueCount := t.uniqueCount + 1 } ∧
      (uniqueLabelNames n t).1.Nodup ∧
      (uniqueLabelNames n t).1.map embeddedCounter
        = (List.range' t.uniqueCount n).map some ∧
      ((uniqueLabelNames n t).1.filterMap embeddedCounter).Pairwise (fun a b => a < b) := by
  have hmap : (uniqueLabelNames n t).1.map embeddedCounter
      = (List.range' t.uniqueCount n).map some := by
    rw [uniqueLabelNames_eq, List.map_map]
    apply List.map_congr_left
    intro c hc
    rw [List.mem_range'_1] at hc
    exact embeddedCounter_uniqueLabelName c (by omega)
  refine ⟨?_, by simp [uniqueLabelNames_eq], by rw [uniqueLabelNames_eq], rfl, ?_, hmap, ?_⟩
  · intro k hk
    refine ⟨formatHex08 (t.uniqueCount + k), ?_, formatHex08_isHex8 _ (by omega)⟩
    rw [uniqueLabelNames_eq]
    simp [List.getElem?_map, List.getElem?_range' _ _ hk, uniqueLabelName]
  · rw [uniqueLabelNames_eq]
    apply List.Nodup.map_on _ (List.nodup_range' _ _)
    intro a ha b hb hab
    rw [List.mem_range'_1] at ha hb
    exact uniqueLabelName_injective a b (by omega) (by omega) hab
  · rw [filterMap_of_map_some _ _ _ hmap]
    exact List.pairwise_lt_range' t.uniqueCount n

/-- Three successive calls on the empty table: the names are pairwise distinct
and the table ends with the counter 3. -/
theorem getUniqueLabelName_sequence_witness :
    (uniqueLabelNames 3 SymbolTable.empty).1.Nodup ∧
      (uniqueLabelNames 3 SymbolTable.empty).2
        = { SymbolTable.empty with uniqueCount := SymbolTable.empty.uniqueCount + 3 } :=
  ⟨(getUniqueLabelName_sequence SymbolTable.empty 3 (by decide)).2.2.2.2.1,
    (getUniqueLabelName_sequence SymbolTable.empty 3 (by decide)).2.2.1⟩

theorem generatedNamesBelow_apply (t : SymbolTable) (op : Op) (hg : GeneratedNamesBelow t)
    (hop : op.keepsGeneratedNames t) : GeneratedNamesBelow (op.apply t) := by
  cases op with
  | getLabel N f s =>
    by_cases hv : isValidSymbolName N = true
    · cases hfind : mapFind t.symbols (resolvedKey N f s) with
      | none =>
        simp only [Op.apply, getLabel_of_absent t N f s hv hfind]
        intro key hkey c hc
        simp only [mapFind_mapSet] at hkey
        by_cases hk : resolvedKey N f s = key
        · have hname : key.name = N := by rw [← hk]; rfl
          rw [hname] at hc ⊢
          exact hop c hc
        · simp only [hk, if_false] at hkey
          exact hg key hkey c hc
      | some info =>
        obtain ⟨ty, idx⟩ := info
        cases ty with
        | LabelSymbol =>
          simp only [Op.apply, getLabel_of_label t N f s idx hv hfind]
          exact hg
        | EquationSymbol =>
          simp only [Op.apply, getLabel_of_equation t N f s idx hv hfind]
          exact hg
    · have hv2 : isValidSymbolName N = false := by simpa using hv
      simp only [Op.apply, getLabel_of_invalid t N f s hv2]
      exact hg
  | symbolExists N f s => exact hg
  | addEquation N f s r =>
    by_cases hv : isValidSymbolName N = true
    · cases hfind : mapFind t.symbols (resolvedKey N f s) with
      | none =>
        simp only [Op.apply, addEquation_of_absent t N r f s hv hfind]
        intro key hkey c hc
        simp only [mapFind_mapSet] at hkey
        by_cases hk : resolvedKey N f s = key
        · have hname : key.name = N := by rw [← hk]; rfl
          rw [hname] at hc ⊢
          exact hop c hc
        · simp only [hk, if_false] at hkey
          exact hg key hkey c hc
      | some info =>
        simp only [Op.apply, addEquation_of_present t N r f s (by rw [hfind]; rfl)]
        exact hg
    · have hv2 : isValidSymbolName N = false := by simpa using hv
      simp only [Op.apply, addEquation_of_invalid t N r f s hv2]
      exact hg
  | insertEquations l f s => exact hg
  | getUniqueLabelName =>
    intro key hkey c hc
    obtain ⟨k, hk, hname⟩ := hg key hkey c hc
    exact ⟨k, Nat.lt_succ_of_lt hk, hname⟩
  | clear =>
    intro key hkey
    simp [Op.apply, SymbolTable.clear, mapFind] at hkey

theorem generatedNamesBelow_run (ops : List Op) (t : SymbolTable) (hg : GeneratedNamesBelow t)
    (hops : runKeepsGeneratedNames t ops) : GeneratedNamesBelow (run t ops) := by
  induction ops generalizing t with
  | nil => exact hg
  | cons op rest ih =>
    exact ih (op.apply t) (generatedNamesBelow_apply t op hg hops.1) hops.2

/-- C14, counterexample: after `getLabel` has declared the valid name
`__armips_label_00000000__` on the empty table, the next `getUniqueLabelName`
returns that very name, and `symbolExists` reports it as registered. -/
theorem generated_name_collides :
    isValidSymbolName (wstr "__armips_label_00000000__") = true ∧
      (run SymbolTable.empty
        [Op.getLabel (wstr "__armips_label_00000000__") 0 0]).getUniqueLabelName.1
        = wstr "__armips_label_00000000__" ∧
      (run SymbolTable.empty
        [Op.getLabel (wstr "__armips_label_00000000__") 0 0]).symbolExists
        (run SymbolTable.empty
          [Op.getLabel (wstr "__armips_label_00000000__") 0 0]).getUniqueLabelName.1 5 6
        = true := by
  decide

/-- The names returned before a `clear` are returned again after it: after
`getUniqueLabelName`, `clear` and a `getLabel` of the name the first call
returned, the next `getUniqueLabelName` returns that name, which is
registered.  So a declared name of the generated form must have been returned
since the last `clear`. -/
theorem generated_name_repeats_after_clear :
    (run SymbolTable.empty [Op.getUniqueLabelName, Op.clear,
        Op.getLabel (SymbolTable.empty.getUniqueLabelName).1 0 0]).symbolExists
      (run SymbolTable.empty [Op.getUniqueLabelName, Op.clear,
        Op.getLabel (SymbolTable.empty.getUniqueLabelName).1 0 0]).getUniqueLabelName.1 0 0
      = true := by
  decide

/-- C14, amended: a name returned by `getUniqueLabelName` does not collide with
a declared name as long as the callers leave the generated form to the
generator.  Take a table reached from the empty table by calls of `getLabel`,
`addEquation` and `getUniqueLabelName`, and of `symbolExists`,
`insertEquations` and `clear` as well, in which every name of the form
`__armips_label_`, 8 hexadecimal digits, `__` passed to `getLabel` or
`addEquation` was returned by `getUniqueLabelName` since the counter was last
reset, by the constructor or by `clear`, that is, for a counter below the
counter at the time of the call; and let the counter of the table be below
2^32.  Then the name the next `getUniqueLabelName` returns is the name of no
registered symbol: `symbolExists` is false for it in every file and
section. -/
theorem generated_name_fresh (ops : List Op)
    (hops : runKeepsGeneratedNames SymbolTable.empty ops)
    (hcount : (run SymbolTable.empty ops).uniqueCount < 2 ^ 32) (f s : Int) :
    (run SymbolTable.empty ops).symbolExists
      (run SymbolTable.empty ops).getUniqueLabelName.1 f s = false := by
  have hg : GeneratedNamesBelow (run SymbolTable.empty ops) := by
    apply generatedNamesBelow_run ops SymbolTable.empty _ hops
    intro key hkey
    simp [SymbolTable.empty, mapFind] at hkey
  by_contra hex
  have hex2 : (run SymbolTable.empty ops).symbolExists
      (run SymbolTable.empty ops).getUniqueLabelName.1 f s = true := by simpa using hex
  rw [getUniqueLabelName_eq] at hex2
  simp only at hex2
  have hv : isValidSymbolName (uniqueLabelName (run SymbolTable.empty ops).uniqueCount) = true := by
    by_contra hv
    have hv2 : isValidSymbolName (uniqueLabelName (run SymbolTable.empty ops).uniqueCount)
        = false := by simpa using hv
    simp [SymbolTable.symbolExists, hv2] at hex2
  rw [symbolExists_of_valid _ _ f s hv] at hex2
  obtain ⟨k, hk, hname⟩ := hg _ hex2 (run SymbolTable.empty ops).uniqueCount rfl
  have hname2 : uniqueLabelName (run SymbolTable.empty ops).uniqueCount = uniqueLabelName k :=
    hname
  have := uniqueLabelName_injective _ k hcount (by omega) hname2
  omega

/-- A label `start`, a generated name, the label of that name, declared after
the call that returned it, and the next generated name, which is fresh. -/
theorem generated_name_fresh_witness :
    (run SymbolTable.empty [Op.getLabel (wstr "start") 1 2, Op.getUniqueLabelName,
        Op.getLabel (wstr "__armips_label_00000000__") 1 2]).symbolExists
      (run SymbolTable.empty [Op.getLabel (wstr "start") 1 2, Op.getUniqueLabelName,
        Op.getLabel (wstr "__armips_label_00000000__") 1 2]).getUniqueLabelName.1 1 2
      = false :=
  generated_name_fresh [Op.getLabel (wstr "start") 1 2, Op.getUniqueLabelName,
      Op.getLabel (wstr "__armips_label_00000000__") 1 2]
    ⟨by
      intro c hc
      exfalso
      have hl : (wstr "start").length = 5 := by decide
      have hl2 : (uniqueLabelName c).length = 25 := by
        simp [uniqueLabelName, formatHex08_eq, wstr]
      rw [hc, hl2] at hl
      omega,
     trivial,
     by
      intro c _
      exact ⟨0, by decide, by decide⟩,
     trivial⟩
    (by decide) 1 2

/-! ## The index invariant -/

theorem mapFind_eq_none_iff (m : SymbolMap) (key : SymbolKey) :
    mapFind m key = none ↔ key ∉ m.map Prod.fst := by
  induction m with
  | nil => simp [mapFind]
  | cons e rest ih =>
    obtain ⟨k, v⟩ := e
    simp only [mapFind, SymbolKey.equiv_eq_decide, decide_eq_true_eq, List.map_cons,
      List.mem_cons, not_or]
    by_cases hk : k = key
    · simp [hk]
    · have hk2 : ¬ key = k := fun e => hk e.symm
      simp [hk, hk2, ih]

theorem mem_keys_mapSet (m : SymbolMap) (key q : SymbolKey) (value : SymbolInfo) :
    q ∈ (mapSet m key value).map Prod.fst ↔ q = key ∨ q ∈ m.map Prod.fst := by
  induction m with
  | nil => simp [mapSet]
  | cons e rest ih =>
    obtain ⟨k, v⟩ := e
    simp only [mapSet]
    by_cases h1 : SymbolKey.lt key k = true
    · simp [h1]
    · by_cases h2 : SymbolKey.lt k key = true
      · simp only [h1, h2, if_true, if_false, List.map_cons, List.mem_cons, ih,
          Bool.false_eq_true]
        constructor
        · rintro (h | h | h)
          · exact Or.inr (Or.inl h)
          · exact Or.inl h
          · exact Or.inr (Or.inr h)
        · rintro (h | h | h)
          · exact Or.inr (Or.inl h)
          · exact Or.inl h
          · exact Or.inr (Or.inr h)
      · have hEq : k = key := by
          apply (SymbolKey.equiv_iff k key).1
          simp only [SymbolKey.equiv, Bool.and_eq_true, Bool.not_eq_true']
          exact ⟨by simpa using h2, by simpa using h1⟩
        subst hEq
        simp [h1]

theorem keys_mapSet_nodup (m : SymbolMap) (key : SymbolKey) (value : SymbolInfo)
    (hnew : key ∉ m.map Prod.fst) (hnd : (m.map Prod.fst).Nodup) :
    ((mapSet m key value).map Prod.fst).Nodup := by
  induction m with
  | nil => simp [mapSet]
  | cons e rest ih =>
    obtain ⟨k, v⟩ := e
    simp only [List.map_cons, List.mem_cons, not_or, List.nodup_cons] at hnew hnd
    simp only [mapSet]
    by_cases h1 : SymbolKey.lt key k = true
    · simp only [h1, if_true, List.map_cons, List.nodup_cons, List.mem_cons, not_or]
      exact ⟨⟨hnew.1, hnew.2⟩, hnd.1, hnd.2⟩
    · by_cases h2 : SymbolKey.lt k key = true
      · simp only [h1, h2, if_true, if_false, List.map_cons, List.nodup_cons,
          mem_keys_mapSet, not_or, Bool.false_eq_true]
        exact ⟨⟨fun e => hnew.1 e.symm, hnd.1⟩, ih hnew.2 hnd.2⟩
      · have hEq : k = key := by
          apply (SymbolKey.equiv_iff k key).1
          simp only [SymbolKey.equiv, Bool.and_eq_true, Bool.not_eq_true']
          exact ⟨by simpa using h2, by simpa using h1⟩
        exact absurd hEq.symm hnew.1

theorem mem_iff_mapFind (m : SymbolMap) (hnd : (m.map Prod.fst).Nodup) (k : SymbolKey)
    (v : SymbolInfo) : (k, v) ∈ m ↔ mapFind m k = some v := by
  induction m with
  | nil => simp [mapFind]
  | cons e rest ih =>
    obtain ⟨k0, v0⟩ := e
    simp only [List.map_cons, List.nodup_cons] at hnd
    simp only [List.mem_cons, Prod.mk.injEq, mapFind, SymbolKey.equiv_eq_decide,
      decide_eq_true_eq]
    by_cases hk : k0 = k
    · subst hk
      simp only [if_true, Option.some.injEq, true_and]
      constructor
      · rintro (h | h)
        · exact h.symm
        · exact absurd (List.mem_map_of_mem Prod.fst h) hnd.1
      · intro h
        exact Or.inl h.symm
    · have hk2 : ¬ k = k0 := fun e => hk e.symm
      simp only [hk, hk2, false_and, false_or, if_false]
      exact ih hnd.2

theorem indexOneToOne_empty : IndexOneToOne SymbolTable.empty := by
  refine ⟨?_, ?_, ?_, ?_⟩
  · simp [KeysUnique, SymbolTable.empty]
  · intro k1 k2 v h
    simp [SymbolTable.empty, mapFind] at h
  · intro i hi
    simp [SymbolTable.empty] at hi
  · intro i hi
    simp [SymbolTable.empty] at hi

theorem getElem?_lt_of_some {α : Type} (l : List α) (i : Nat) (a : α) (h : l[i]? = some a) :
    i < l.length := by
  by_contra hge
  rw [List.getElem?_eq_none (by omega)] at h
  simp at h

/-- Registering a new key with a new slot keeps the index one-to-one. -/
theorem indexOneToOne_insert (m : SymbolMap) (key : SymbolKey) (ty : SymbolType) (len : Nat)
    (hfree : mapFind m key = none)
    (hbound : ∀ k i, mapFind m k = some ⟨ty, i⟩ → i < len)
    (hnd : (m.map Prod.fst).Nodup)
    (hinj : ∀ (k1 k2 : SymbolKey) (v : SymbolInfo),
      mapFind m k1 = some v → mapFind m k2 = some v → k1 = k2) :
    ((mapSet m key ⟨ty, len⟩).map Prod.fst).Nodup ∧
      (∀ (k1 k2 : SymbolKey) (v : SymbolInfo),
        mapFind (mapSet m key ⟨ty, len⟩) k1 = some v →
        mapFind (mapSet m key ⟨ty, len⟩) k2 = some v → k1 = k2) ∧
      (∀ k v, mapFind m k = some v → mapFind (mapSet m key ⟨ty, len⟩) k = some v) := by
  refine ⟨keys_mapSet_nodup m key _ ((mapFind_eq_none_iff m key).1 hfree) hnd, ?_, ?_⟩
  · intro k1 k2 v h1 h2
    rw [mapFind_mapSet] at h1 h2
    by_cases e1 : key = k1
    · by_cases e2 : key = k2
      · rw [← e1, ← e2]
      · simp only [e1, if_true, Option.some.injEq] at h1
        simp only [e2, if_false] at h2
        rw [← h1] at h2
        exact absurd (hbound k2 len h2) (lt_irrefl _)
    · by_cases e2 : key = k2
      · simp only [e2, if_true, Option.some.injEq] at h2
        simp only [e1, if_false] at h1
        rw [← h2] at h1
        exact absurd (hbound k1 len h1) (lt_irrefl _)
      · simp only [e1, if_false] at h1
        simp only [e2, if_false] at h2
        exact hinj k1 k2 v h1 h2
  · intro k v h
    rw [mapFind_mapSet]
    have hk : ¬ key = k := by
      intro e
      rw [e, h] at hfree
      simp at hfree
    simp [hk, h]

theorem indexOneToOne_getLabel (t : SymbolTable) (N : wstring) (f s : Int)
    (hc : Consistent t) (hi : IndexOneToOne t) : IndexOneToOne (t.getLabel N f s).2 := by
  by_cases hv : isValidSymbolName N = true
  · cases hfind : mapFind t.symbols (resolvedKey N f s) with
    | none =>
      rw [getLabel_of_absent t N f s hv hfind]
      obtain ⟨hnd, hinj, hls, hes⟩ := hi
      obtain ⟨a1, a2, a3⟩ := indexOneToOne_insert t.symbols (resolvedKey N f s)
        SymbolType.LabelSymbol t.labels.length hfind
        (fun k i h => by
          obtain ⟨l, hl, _⟩ := hc.1 k i h
          exact getElem?_lt_of_some _ _ _ hl) hnd hinj
      refine ⟨a1, a2, ?_, ?_⟩
      · intro i hlt
        simp only [List.length_append, List.length_singleton] at hlt
        by_cases hi2 : i = t.labels.length
        · exact ⟨resolvedKey N f s, by rw [hi2]; exact mapFind_mapSet_self _ _ _⟩
        · obtain ⟨k, hk⟩ := hls i (by omega)
          exact ⟨k, a3 k _ hk⟩
      · intro i hlt
        obtain ⟨k, hk⟩ := hes i hlt
        exact ⟨k, a3 k _ hk⟩
    | some info =>
      obtain ⟨ty, idx⟩ := info
      cases ty with
      | LabelSymbol => rw [getLabel_of_label t N f s idx hv hfind]; exact hi
      | EquationSymbol => rw [getLabel_of_equation t N f s idx hv hfind]; exact hi
  · have hv2 : isValidSymbolName N = false := by simpa using hv
    rw [getLabel_of_invalid t N f s hv2]
    exact hi

theorem indexOneToOne_addEquation (t : SymbolTable) (N r : wstring) (f s : Int)
    (hc : Consistent t) (hi : IndexOneToOne t) : IndexOneToOne (t.addEquation N f s r).2 := by
  by_cases hv : isValidSymbolName N = true
  · cases hfind : mapFind t.symbols (resolvedKey N f s) with
    | none =>
      rw [addEquation_of_absent t N r f s hv hfind]
      obtain ⟨hnd, hinj, hls, hes⟩ := hi
      obtain ⟨a1, a2, a3⟩ := indexOneToOne_insert t.symbols (resolvedKey N f s)
        SymbolType.EquationSymbol t.equations.length hfind
        (fun k i h => by
          obtain ⟨e, he, _⟩ := hc.2.1 k i h
          exact getElem?_lt_of_some _ _ _ he) hnd hinj
      refine ⟨a1, a2, ?_, ?_⟩
      · intro i hlt
        obtain ⟨k, hk⟩ := hls i hlt
        exact ⟨k, a3 k _ hk⟩
      · intro i hlt
        simp only [List.length_append, List.length_singleton] at hlt
        by_cases hi2 : i = t.equations.length
        · exact ⟨resolvedKey N f s, by rw [hi2]; exact mapFind_mapSet_self _ _ _⟩
        · obtain ⟨k, hk⟩ := hes i (by omega)
          exact ⟨k, a3 k _ hk⟩
    | some info =>
      rw [addEquation_of_present t N r f s (by rw [hfind]; rfl)]
      exact hi
  · have hv2 : isValidSymbolName N = false := by simpa using hv
    rw [addEquation_of_invalid t N r f s hv2]
    exact hi

theorem indexOneToOne_apply (t : SymbolTable) (op : Op) (hc : Consistent t)
    (hi : IndexOneToOne t) : IndexOneToOne (op.apply t) := by
  cases op with
  | getLabel N f s => exact indexOneToOne_getLabel t N f s hc hi
  | symbolExists N f s => exact hi
  | addEquation N f s r => exact indexOneToOne_addEquation t N r f s hc hi
  | insertEquations l f s => exact hi
  | getUniqueLabelName => exact hi
  | clear => exact indexOneToOne_empty

theorem indexOneToOne_run (ops : List Op) (t : SymbolTable) (hc : Consistent t)
    (hi : IndexOneToOne t) : IndexOneToOne (run t ops) := by
  induction ops generalizing t with
  | nil => exact hi
  | cons op rest ih =>
    exact ih (op.apply t) (consistent_apply t op hc) (indexOneToOne_apply t op hc hi)

theorem indexOneToOne_of_reachable (t : SymbolTable) (h : Reachable t) : IndexOneToOne t := by
  obtain ⟨ops, rfl⟩ := h
  exact indexOneToOne_run ops SymbolTable.empty consistent_empty indexOneToOne_empty

/-- C17: the index invariant.  In every table reachable from the empty table
by calls of the six operations and `clear`, each key of the map has exactly one
entry; a label entry points to a slot of the label list, whose label carries
the name of the key, and an equation entry points to a slot of the equation
list, whose equation carries the name of the key; no two keys share a kind
and index; every slot of either list is referenced by exactly one key.
Later calls other than `clear`, `getLabel` and `addEquation` among them, change
no stored entry and no stored slot. -/
theorem index_invariant (t : SymbolTable) (hr : Reachable t) :
    (t.symbols.map Prod.fst).Nodup ∧
      (∀ (k : SymbolKey) (v : SymbolInfo), (k, v) ∈ t.symbols ↔ mapFind t.symbols k = some v) ∧
      (∀ (k : SymbolKey) (i : Nat), (k, ⟨SymbolType.LabelSymbol, i⟩) ∈ t.symbols →
        i < t.labels.length ∧ ∃ l, t.labels[i]? = some l ∧ l.name = k.name) ∧
      (∀ (k : SymbolKey) (i : Nat), (k, ⟨SymbolType.EquationSymbol, i⟩) ∈ t.symbols →
        i < t.equations.length ∧ ∃ e, t.equations[i]? = some e ∧ e.key = k.name) ∧
      (∀ (k1 k2 : SymbolKey) (v : SymbolInfo), (k1, v) ∈ t.symbols → (k2, v) ∈ t.symbols →
        k1 = k2) ∧
      (∀ i : Nat, i < t.labels.length →
        ∃! k : SymbolKey, (k, ⟨SymbolType.LabelSymbol, i⟩) ∈ t.symbols) ∧
      (∀ i : Nat, i < t.equations.length →
        ∃! k : SymbolKey, (k, ⟨SymbolType.EquationSymbol, i⟩) ∈ t.symbols) ∧
      (∀ ops : List Op, Op.clear ∉ ops →
        (∀ k v, (k, v) ∈ t.symbols → (k, v) ∈ (run t ops).symbols) ∧
        (∀ (i : Nat) (l : Label), t.labels[i]? = some l → (run t ops).labels[i]? = some l) ∧
        (∀ (i : Nat) (e : Equation), t.equations[i]? = some e →
          (run t ops).equations[i]? = some e)) := by
  obtain ⟨hl, he, _, _⟩ := consistent_of_reachable t hr
  obtain ⟨hnd, hinj, hls, hes⟩ := indexOneToOne_of_reachable t hr
  have hmem := mem_iff_mapFind t.symbols hnd
  refine ⟨hnd, hmem, ?_, ?_, ?_, ?_, ?_, ?_⟩
  · intro k i h
    obtain ⟨l, h1, h2⟩ := hl k i ((hmem k _).1 h)
    exact ⟨getElem?_lt_of_some _ _ _ h1, l, h1, h2⟩
  · intro k i h
    obtain ⟨e, h1, h2, _⟩ := he k i ((hmem k _).1 h)
    exact ⟨getElem?_lt_of_some _ _ _ h1, e, h1, h2⟩
  · intro k1 k2 v h1 h2
    exact hinj k1 k2 v ((hmem k1 v).1 h1) ((hmem k2 v).1 h2)
  · intro i hi
    obtain ⟨k, hk⟩ := hls i hi
    refine ⟨k, (hmem k _).2 hk, ?_⟩
    intro k2 hk2
    exact hinj k2 k _ ((hmem k2 _).1 hk2) hk
  · intro i hi
    obtain ⟨k, hk⟩ := hes i hi
    refine ⟨k, (hmem k _).2 hk, ?_⟩
    intro k2 hk2
    exact hinj k2 k _ ((hmem k2 _).1 hk2) hk
  · intro ops hops
    obtain ⟨a1, a2, a3⟩ := run_keeps ops t hops
    have hr2 : Reachable (run t ops) := by
      obtain ⟨ops0, rfl⟩ := hr
      exact ⟨ops0 ++ ops, by simp [run, List.foldl_append]⟩
    have hnd2 := (indexOneToOne_of_reachable _ hr2).1
    refine ⟨?_, a2, a3⟩
    intro k v h
    exact (mem_iff_mapFind _ hnd2 k v).2 (a1 k v ((hmem k v).1 h))

/-- The table after a label `start`, an equation `SIZE`, a generated name, a
`clear` and a label `@loc`: its index is one-to-one. -/
theorem index_invariant_witness :
    ((run SymbolTable.empty [Op.getLabel (wstr "start") 1 2,
        Op.addEquation (wstr "SIZE") 1 2 (wstr "16"), Op.getUniqueLabelName, Op.clear,
        Op.getLabel (wstr "@loc") 1 2]).symbols.map Prod.fst).Nodup :=
  (index_invariant _ ⟨[Op.getLabel (wstr "start") 1 2,
    Op.addEquation (wstr "SIZE") 1 2 (wstr "16"), Op.getUniqueLabelName, Op.clear,
    Op.getLabel (wstr "@loc") 1 2], rfl⟩).1

/-! ## The symbol file -/

theorem writeSymFileLoop_eq (getValue : Label → Nat) (labels : List Label) (fuel i : Nat)
    (output : List TextFileWrite) (h : labels.length ≤ i + fuel) :
    writeSymFileLoop getValue labels fuel i output =
      output ++ (labels.drop i).map
        (fun l => TextFileWrite.writeLine (formatSymLine (getValue l) (cStr l.name))) := by
  induction fuel generalizing i output with
  | zero =>
    rw [List.drop_eq_nil_of_le (by omega)]
    simp [writeSymFileLoop]
  | succ fuel ih =>
    simp only [writeSymFileLoop]
    by_cases hi : i < labels.length
    · rw [List.getElem?_eq_getElem hi, List.drop_eq_getElem_cons hi]
      simp only [List.map_cons]
      rw [ih (i + 1) _ (by omega)]
      simp
    · rw [List.getElem?_eq_none (by omega), List.drop_eq_nil_of_le (by omega)]
      simp

theorem cStr_of_no_null (s : wstring) (h : 0 ∉ s) : cStr s = s := by
  unfold cStr
  rw [List.takeWhile_eq_self_iff]
  intro c hc
  have hne : c ≠ 0 := fun e => h (e ▸ hc)
  simpa using hne

theorem no_null_of_validNameSpec (N : wstring) (hvalid : ValidNameSpec N) : 0 ∉ N := by
  intro h0
  obtain ⟨_, _, _, _, hall⟩ := hvalid
  rw [← List.take_append_drop (scopePrefixLength N) N, List.mem_append] at h0
  rcases h0 with h0 | h0
  · exact absurd (scopePrefix_all_at N 0 h0) (by decide)
  · rcases hall 0 h0 with h | h | h | h | h <;> omega

/-- What the file holds when it opens, for every table: the header line, one
line per label in the order of the label list, made of the digits of the
value, a space and the name up to its first null character, and the character
0x1A. -/
theorem writeSymFile_eq (t : SymbolTable) (getValue : Label → Nat) :
    (t.writeSymFile getValue true).1 =
      some ([TextFileWrite.writeLine (wstr "00000000 0")] ++
        t.labels.map (fun l =>
          TextFileWrite.writeLine (formatHex08 (getValue l) ++ [32] ++ cStr l.name)) ++
        [TextFileWrite.write [26]]) := by
  simp only [SymbolTable.writeSymFile, Bool.true_eq_false, if_false]
  rw [writeSymFileLoop_eq getValue t.labels t.labels.length 0 _ (by omega)]
  simp [formatSymLine]

/-- A label whose name holds a null character, which `getLabel` accepts, is
written with its name cut at that character: the label named `a`, null, `b`
gives the line `00000000 a`. -/
theorem writeSymFile_null_name :
    (SymbolTable.empty.getLabel [97, 0, 98] 0 0).1 = some 0 ∧
      ((SymbolTable.empty.getLabel [97, 0, 98] 0 0).2.writeSymFile (fun _ => 0) true).1 =
        some [TextFileWrite.writeLine (wstr "00000000 0"),
          TextFileWrite.writeLine (wstr "00000000 a"),
          TextFileWrite.write [26]] := by
  decide

/-- C16: the symbol file is a function of the label list.  Take a table in
which no label name holds a null character, as is the case for the names that
are valid in the sense of the specification.  When the file opens, it holds
the header line `00000000 0`, then for each label, in the order of the label
list, the line made of the value of the label as 8 zero-padded uppercase
hexadecimal digits, a space and the name of the label, then the character
0x1A; the equations add no line, and a label created by `getLabel` for a name
without a null character adds its line after the lines of the labels before
it.  When the file does not open nothing is written.  In both cases the table
is unchanged. -/
theorem writeSymFile_output (t : SymbolTable) (getValue : Label → Nat)
    (hnames : ∀ l ∈ t.labels, 0 ∉ l.name) :
    (t.writeSymFile getValue true).1 =
        some ([TextFileWrite.writeLine (wstr "00000000 0")] ++
          t.labels.map (fun l =>
            TextFileWrite.writeLine (formatHex08 (getValue l) ++ [32] ++ l.name)) ++
          [TextFileWrite.write [26]]) ∧
      (∀ l ∈ t.labels, getValue l < 2 ^ 32 → IsHex8 (formatHex08 (getValue l)) (getValue l)) ∧
      (∀ t2 : SymbolTable, t2.labels = t.labels →
        (t2.writeSymFile getValue true).1 = (t.writeSymFile getValue true).1) ∧
      (∀ (N r : wstring) (f s : Int),
        ((t.addEquation N f s r).2.writeSymFile getValue true).1 =
          (t.writeSymFile getValue true).1) ∧
      (∀ (N : wstring) (f s : Int), isValidSymbolName N = true → 0 ∉ N →
        mapFind t.symbols (resolvedKey N f s) = none →
        ((t.getLabel N f s).2.writeSymFile getValue true).1 =
          some ([TextFileWrite.writeLine (wstr "00000000 0")] ++
            t.labels.map (fun l =>
              TextFileWrite.writeLine (formatHex08 (getValue l) ++ [32] ++ l.name)) ++
            [TextFileWrite.writeLine (formatHex08 (getValue (Label.new N)) ++ [32] ++ N)] ++
            [TextFileWrite.write [26]])) ∧
      (∀ N : wstring, ValidNameSpec N → isValidSymbolName N = true ∧ 0 ∉ N) ∧
      (t.writeSymFile getValue false).1 = none ∧
      (t.writeSymFile getValue true).2 = t ∧ (t.writeSymFile getValue false).2 = t := by
  have hmap : t.labels.map (fun l =>
        TextFileWrite.writeLine (formatHex08 (getValue l) ++ [32] ++ cStr l.name)) =
      t.labels.map (fun l =>
        TextFileWrite.writeLine (formatHex08 (getValue l) ++ [32] ++ l.name)) := by
    apply List.map_congr_left
    intro l hl
    rw [cStr_of_no_null l.name (hnames l hl)]
  have hlabels : ∀ t1 t2 : SymbolTable, t2.labels = t1.labels →
      (t2.writeSymFile getValue true).1 = (t1.writeSymFile getValue true).1 := by
    intro t1 t2 h
    rw [writeSymFile_eq t1, writeSymFile_eq t2, h]
  refine ⟨by rw [writeSymFile_eq, hmap], fun l _ hl => formatHex08_isHex8 _ hl, hlabels t,
    ?_, ?_, fun N hN => ⟨isValidSymbolName_of_spec N hN, no_null_of_validNameSpec N hN⟩,
    rfl, rfl, rfl⟩
  · intro N r f s
    apply hlabels
    by_cases hv : isValidSymbolName N = true
    · cases hfind : mapFind t.symbols (resolvedKey N f s) with
      | none => rw [addEquation_of_absent t N r f s hv hfind]
      | some info => rw [addEquation_of_present t N r f s (by rw [hfind]; rfl)]
    · have hv2 : isValidSymbolName N = false := by simpa using hv
      rw [addEquation_of_invalid t N r f s hv2]
  · intro N f s hv hnull hfind
    rw [writeSymFile_eq, getLabel_of_absent t N f s hv hfind]
    simp only [List.map_append, hmap, List.map_cons, List.map_nil, Label.new,
      cStr_of_no_null N hnull]
    simp only [List.append_assoc]

/-- The table with the labels `start` and `@loc` and the equation `SIZE`, none
of whose names holds a null character, with every value read as 255: the file
holds the header, the two label lines in the order of creation, and the
end-of-file character. -/
theorem writeSymFile_output_witness :
    (∀ l ∈ (run SymbolTable.empty [Op.getLabel (wstr "start") 1 2,
        Op.addEquation (wstr "SIZE") 1 2 (wstr "16"),
        Op.getLabel (wstr "@loc") 1 2]).labels, 0 ∉ l.name) ∧
      ((run SymbolTable.empty [Op.getLabel (wstr "start") 1 2,
        Op.addEquation (wstr "SIZE") 1 2 (wstr "16"),
        Op.getLabel (wstr "@loc") 1 2]).writeSymFile (fun _ => 255) true).1 =
      some [TextFileWrite.writeLine (wstr "00000000 0"),
        TextFileWrite.writeLine (wstr "000000FF start"),
        TextFileWrite.writeLine (wstr "000000FF @loc"),
        TextFileWrite.write [26]] ∧
      IsHex8 (formatHex08 255) 255 :=
  ⟨by decide,
    by
      rw [(writeSymFile_output _ (fun _ => 255) (by decide)).1]
      decide,
    (writeSymFile_output (run SymbolTable.empty [Op.getLabel (wstr "start") 1 2,
        Op.addEquation (wstr "SIZE") 1 2 (wstr "16"),
        Op.getLabel (wstr "@loc") 1 2]) (fun _ => 255) (by decide)).2.1 ⟨wstr "start", none⟩
      (by decide) (by decide)⟩

end Armips
